import Mathlib

/-!
Verification of the S3 client engine (`src/S3/S3.py`) against its
natural-language specification.

The Python source is shallowly embedded: pure computations become Lean
functions, the retry loops of `send_request`, `send_file` and `recv_file`
become structural recursions over an oracle listing the outcome of each
HTTP attempt, and Python integers are modelled by `Nat`/`Int` on the
domains where the source keeps them non-negative.
-/

namespace S3Spec

/-! ### Python string primitives

The byte strings handled by the source are ASCII; Python 2's `str.lower`,
`str.upper` and `str.strip` act per byte, modelled here on the character
list of a `String` so that every operation reduces in the kernel. -/

/-- Python `chr.lower()` on an ASCII character. -/
def pyLowerChar (c : Char) : Char :=
  if 65 ≤ c.toNat ∧ c.toNat ≤ 90 then Char.ofNat (c.toNat + 32) else c

/-- Python `chr.upper()` on an ASCII character. -/
def pyUpperChar (c : Char) : Char :=
  if 97 ≤ c.toNat ∧ c.toNat ≤ 122 then Char.ofNat (c.toNat - 32) else c

/-- Python `str.lower()`. -/
def pyLower (s : String) : String := ⟨s.data.map pyLowerChar⟩

/-- Python `str.upper()`. -/
def pyUpper (s : String) : String := ⟨s.data.map pyUpperChar⟩

/-- Python `str.isspace` for a single character (space, tab, newline,
carriage return, vertical tab, form feed). -/
def pyIsSpace (c : Char) : Bool :=
  c = ' ' || c = '\t' || c = '\n' || c = '\r' || c.toNat = 11 || c.toNat = 12

/-- Python `str.strip()`: remove leading and trailing whitespace. -/
def pyStrip (s : String) : String :=
  ⟨((s.data.dropWhile pyIsSpace).reverse.dropWhile pyIsSpace).reverse⟩

/-- Python `s[1:]`: drop the first character. -/
def strTail (s : String) : String := ⟨s.data.drop 1⟩

/-- `S3._max_retries` (line 147 of the source): default retry budget. -/
def maxRetries : Nat := 5

/-- `S3._fail_wait` (lines 790-792): wait `(max_retries - retries + 1) * 3`
seconds before the next attempt. -/
def failWait (retries : Nat) : Nat := (maxRetries - retries + 1) * 3

/-! ### Transport loop: `S3.send_request` (lines 794-845)

Each element of the oracle is the outcome of one HTTP exchange: either an
exception raised while connecting/sending/reading, or a response status. -/

/-- Outcome of a single `send_request` HTTP exchange. -/
inductive ReqOutcome where
  | exc : ReqOutcome
  | ok : Nat → ReqOutcome
deriving DecidableEq, Repr

/-- One attempt of `send_request`: the retry budget it ran with, the
outcome of its exchange, and the `time.sleep` it performed afterwards
(`none` when the attempt did not sleep). -/
structure ReqAttempt where
  budget : Nat
  outcome : ReqOutcome
  sleepAfter : Option Nat
deriving DecidableEq, Repr

/-- Trace of the attempts performed by `S3.send_request` (lines 794-845).
On an exception (line 814) with a truthy budget it sleeps
`_fail_wait(retries)` and recurses with `retries - 1`; on status 307
(line 823) it recurses as `self.send_request(request, body)`, i.e. with
the *default* budget `_max_retries`; on a status `>= 500` with a truthy
budget it sleeps and recurses with `retries - 1`; every other status stops
the loop (success return or raised `S3Error`). -/
def sendRequestTrace (oracle : List ReqOutcome) (retries : Nat) : List ReqAttempt :=
  match oracle with
  | [] => []
  | o :: rest =>
    match o with
    | .exc =>
      if retries ≠ 0 then
        ⟨retries, o, some (failWait retries)⟩ :: sendRequestTrace rest (retries - 1)
      else
        [⟨retries, o, none⟩]
    | .ok s =>
      if s = 307 then
        ⟨retries, o, none⟩ :: sendRequestTrace rest maxRetries
      else if 500 ≤ s then
        if retries ≠ 0 then
          ⟨retries, o, some (failWait retries)⟩ :: sendRequestTrace rest (retries - 1)
        else
          [⟨retries, o, none⟩]
      else
        [⟨retries, o, none⟩]

/-- The status of an outcome is 307. -/
def ReqOutcome.is307 : ReqOutcome → Bool
  | .ok s => s == 307
  | .exc => false

/-! ### Streaming uploader: `S3.send_file` (lines 855-997)

`send_file(self, request, file, labels, throttle = 0, retries =
_max_retries, part_info = None)`.  The 307 branch (line 953) recurses as
`self.send_file(request, file, labels, retries, part_info)`: the
arguments are positional, so the old budget arrives in the `throttle`
parameter and `part_info` arrives in the `retries` parameter.  To follow
the resulting dynamic typing, the values that can occupy the `throttle`
and `retries` slots are modelled as `PyVal`; the float seconds of the
throttle are kept integral by measuring them in hundredths of a second
(so the literal `0.01` of line 924 is `num 1`). -/

/-- A Python value that can occupy the `throttle`/`retries` slot of
`send_file`: an integer, `None`, or the `part_info` dict. -/
inductive PyVal where
  | num : Int → PyVal
  | noneV : PyVal
  | dictV : PyVal
deriving DecidableEq, Repr

/-- Python truthiness of a `PyVal` (`0` and `None` are falsy, a non-empty
dict is truthy). -/
def pyTruthy : PyVal → Bool
  | .num n => n ≠ 0
  | .noneV => false
  | .dictV => true

/-- The `part_info` argument of `send_file` seen as the `PyVal` it
becomes when it is (wrongly) passed into the `retries` slot. -/
def pyOfPartInfo : Option Unit → PyVal
  | none => .noneV
  | some _ => .dictV

/-- `retries - 1` on a `PyVal`; only defined (reached) on integers, since
`dict - 1` and `None - 1` raise `TypeError` in the source before any
recursion happens. -/
def pyDec : PyVal → PyVal
  | .num n => .num (n - 1)
  | v => v

/-- `throttle and throttle * 5 or 0.01` (line 924), in hundredths of a
second; multiplied on a dict it raises `TypeError` (`none`). -/
def pyThrottleBump : PyVal → Option PyVal
  | .num t => some (.num (if t ≠ 0 then t * 5 else 1))
  | .noneV => some (.num 1)
  | .dictV => none

/-- Outcome of one `send_file` attempt: an exception while connecting /
sending headers, an exception while streaming the body or reading the
response, or a response with its status, whether its error code is in the
retriable list `['BadDigest', 'OperationAborted', 'TokenRefreshRequired',
'RequestTimeout']`, and whether its ETag matches the computed MD5. -/
inductive SendOutcome where
  | connExc : SendOutcome
  | bodyExc : SendOutcome
  | resp : Nat → Bool → Bool → SendOutcome
deriving DecidableEq, Repr

/-- The outcome is a 307 response. -/
def SendOutcome.is307 : SendOutcome → Bool
  | .resp s _ _ => s == 307
  | .connExc => false
  | .bodyExc => false

/-- One attempt of `send_file`: the value sitting in its `retries`
parameter, the value of its `part_info` parameter, and the outcome. -/
structure SendAttempt where
  budget : PyVal
  partInfo : Option Unit
  outcome : SendOutcome
deriving DecidableEq, Repr

/-- Trace of the attempts performed by `S3.send_file` (lines 855-997).
Connection exceptions (line 874) and body exceptions (line 918) retry
with `retries - 1` when `retries` is truthy (the body path first bumps the
throttle when `retries < _max_retries`, line 923); `_fail_wait(retries)`
raises `TypeError` when the budget slot holds the `part_info` dict, ending
the process.  A 307 response (line 947) recurses as
`send_file(request, file, labels, retries, part_info)`, so the budget
moves into the throttle slot and `part_info` becomes the budget (and the
new `part_info` is the default `None`).  A status `>= 500`, or a 4xx with
a retriable code (lines 960-980), retries with `retries - 1` when truthy.
A 2xx response whose ETag does not match the MD5 retries with
`retries - 1` when truthy (line 986-995); a matching 2xx returns. -/
def sendFileTrace (oracle : List SendOutcome) (throttle retries : PyVal)
    (partInfo : Option Unit) : List SendAttempt :=
  match oracle with
  | [] => []
  | o :: rest =>
    (⟨retries, partInfo, o⟩ : SendAttempt) ::
    (match o with
     | .connExc =>
       if pyTruthy retries then
         match retries with
         | .num n => sendFileTrace rest throttle (.num (n - 1)) partInfo
         | _ => []  -- `_fail_wait(retries)`: TypeError on the dict
       else []      -- raise S3UploadError
     | .bodyExc =>
       if pyTruthy retries then
         match retries with
         | .num n =>
           if n < (maxRetries : Int) then
             match pyThrottleBump throttle with
             | some t => sendFileTrace rest t (.num (n - 1)) partInfo
             | none => []  -- `throttle * 5`: TypeError on the dict
           else sendFileTrace rest throttle (.num (n - 1)) partInfo
         | _ => []  -- `_fail_wait(retries)`: TypeError on the dict
       else []      -- raise S3UploadError
     | .resp s retriableCode etagMatches =>
       if s = 307 then
         -- line 953: send_file(request, file, labels, retries, part_info)
         sendFileTrace rest retries (pyOfPartInfo partInfo) none
       else if s < 200 ∨ 299 < s then
         if 500 ≤ s ∨ (400 ≤ s ∧ retriableCode) then
           if pyTruthy retries then
             match retries with
             | .num n => sendFileTrace rest throttle (.num (n - 1)) partInfo
             | _ => []  -- `_fail_wait(retries)`: TypeError on the dict
           else []      -- raise S3UploadError
         else []        -- raise S3Error
       else if ¬ etagMatches then
         if pyTruthy retries then
           match retries with
           | .num n => sendFileTrace rest throttle (.num (n - 1)) partInfo
           | _ => []    -- `retries - 1`: TypeError on the dict
         else []        -- raise S3UploadError
       else [])         -- success

/-! ### Streaming downloader: `S3.recv_file` (lines 999-1137)

`recv_file(self, request, stream, labels, start_position = 0, retries =
_max_retries, end_position = -1)`.  Each attempt first executes
`stream.seek(0)` (line 1005).  The oracle gives each attempt's outcome;
a `body` outcome lists the chunks returned by `http_response.read` and
whether an exception interrupts the loop after the listed chunks. -/

/-- Outcome of one `recv_file` attempt. -/
inductive RecvOutcome where
  | connExc : RecvOutcome
  | redirect307 : RecvOutcome
  | failStatus : Nat → RecvOutcome
  | body : List (List Nat) → Bool → RecvOutcome
deriving DecidableEq, Repr

/-- One attempt of `recv_file`: the `start_position`, `retries` and
`end_position` arguments it was called with, and each `stream.write` it
performed, as a `(stream position, bytes)` pair. -/
structure RecvAttempt where
  startPos : Nat
  budget : Nat
  endPos : Int
  writes : List (Nat × List Nat)
deriving DecidableEq, Repr

/-- The write events of the body loop (lines 1065-1074): the stream
position advances by the length of each written chunk, starting from the
position left by `stream.seek(0)`. -/
def writeEvents (pos : Nat) : List (List Nat) → List (Nat × List Nat)
  | [] => []
  | c :: cs => (pos, c) :: writeEvents (pos + c.length) cs

/-- Trace of the calls performed by `S3.recv_file` (lines 999-1137); each
record is one (possibly recursive) call.  Every call seeks the stream to
position 0 (line 1005) before its body loop, so its writes start at
stream position 0.  A connection exception (line 1026) retries with
`(start_position, retries - 1, end_position)`; a 307 (line 1039) retries
with `(start_position, retries, end_position)`; a body exception
(line 1076) retries with `(current_position, retries - 1)` — leaving
`end_position` at its default `-1` — when an upper bound had been
requested, and with `(start_position, retries - 1, end_position)`
otherwise. -/
def recvFileTrace (oracle : List RecvOutcome) (start retries : Nat)
    (endPos : Int) : List RecvAttempt :=
  match oracle with
  | [] => []
  | o :: rest =>
    match o with
    | .connExc =>
      if retries ≠ 0 then
        ⟨start, retries, endPos, []⟩ :: recvFileTrace rest start (retries - 1) endPos
      else [⟨start, retries, endPos, []⟩]  -- raise S3DownloadError
    | .redirect307 =>
      ⟨start, retries, endPos, []⟩ :: recvFileTrace rest start retries endPos
    | .failStatus _ =>
      [⟨start, retries, endPos, []⟩]       -- raise S3Error
    | .body chunks exc =>
      let ws := writeEvents 0 chunks       -- stream.seek(0) happened first
      let current := start + (chunks.map List.length).sum
      if exc then
        if retries ≠ 0 then
          if endPos ≠ -1 then
            -- line 1085: recv_file(request, stream, labels, current_position, retries - 1)
            ⟨start, retries, endPos, ws⟩ :: recvFileTrace rest current (retries - 1) (-1)
          else
            -- line 1087: recv_file(request, stream, labels, start_position, retries - 1, end_position)
            ⟨start, retries, endPos, ws⟩ :: recvFileTrace rest start (retries - 1) endPos
        else [⟨start, retries, endPos, ws⟩]  -- raise S3DownloadError
      else [⟨start, retries, endPos, ws⟩]    -- success

/-! ### Multipart upload planning: `S3.object_multipart_upload` (lines 339-486) -/

/-- One planned part: `{'part_no': i, 'start_position': start_offset,
'end_position': end_offset}` (line 402). -/
structure Part where
  partNo : Nat
  startOff : Nat
  endOff : Nat
deriving DecidableEq, Repr

/-- The part-planning loop of `object_multipart_upload` (lines 391-409):
`for offset in range(0, file_size, parts_size)`, with
`end_offset = start_offset + parts_size - 1` capped to `file_size - 1`
when the part number reaches `parallel_multipart_upload_count` or the
range would overrun, and `break` once `end_offset == file_size - 1`. -/
def planPartsAux (fs p count : Nat) (i offset : Nat) : List Part :=
  if _h : offset < fs ∧ 0 < p then
    let e0 : Nat :=
      if offset + p - 1 < fs then
        (if i = count then fs - 1 else offset + p - 1)
      else fs - 1
    if e0 = fs - 1 then
      [⟨i, offset, e0⟩]
    else
      ⟨i, offset, e0⟩ :: planPartsAux fs p count (i + 1) (offset + p)
  else []
termination_by fs - offset
decreasing_by omega

/-- The multipart plan for a file of `fs` bytes with `parts_size = p`,
starting at part 1 and offset 0. -/
def planParts (fs p count : Nat) : List Part :=
  planPartsAux fs p count 1 0

/-- High-level steps taken by `object_multipart_upload`. -/
inductive MpAction where
  | objectPutFallback : MpAction
  | initiateUploads : MpAction
  | putPart : Nat → MpAction
  | completeUpload : MpAction
deriving DecidableEq, Repr

/-- The minimum part size of 5 MiB (`5*1024*1024`, line 353). -/
def minPartSize : Nat := 5 * 1024 * 1024

/-- The request-issuing skeleton of `object_multipart_upload`
(lines 351-463): with `parts_size = file_size /
parallel_multipart_upload_count` below 5 MiB it degrades to
`object_put` (line 355) before any initiate request; otherwise it sends
`POST ?uploads`, uploads the planned parts, and completes. -/
def objectMultipartUploadActions (fs count : Nat) : List MpAction :=
  let p := fs / count
  if p < minPartSize then
    [.objectPutFallback]
  else
    .initiateUploads ::
      ((planParts fs p count).map (fun part => .putPart part.partNo) ++ [.completeUpload])

/-- The multipart plan actually used: `none` when multipart is disabled
(fallback to `object_put`). -/
def objectMultipartUploadPlan (fs count : Nat) : Option (List Part) :=
  let p := fs / count
  if p < minPartSize then none else some (planParts fs p count)

/-! ### Host resolution: `S3.get_hostname` (lines 164-173)

`check_bucket_name_dns_conformity` and `getHostnameFromBucket` live in
`Utils.py`, which is not part of the sources; `getHostnameFromBucket` is
modelled from the spec (§4.3: `<bucket>.<host_base>`), and the
DNS-conformity check — which the spec references but never defines — is a
parameter of the embedding (`dnsOk`), since the claims depend only on its
verdict. -/

/-- `S3.get_hostname` (lines 164-173): the DNS-conformity test gates the
`redir_map` lookup; a falsy or non-conformant bucket name always resolves
to the configured `host_base`. -/
def getHostname (dnsOk : String → Bool) (redirMap : List (String × String))
    (hostBase : String) (bucket : Option String) : String :=
  match bucket with
  | some b =>
    if b ≠ "" ∧ dnsOk b then
      match List.lookup b redirMap with
      | some h => h
      | none => b ++ "." ++ hostBase   -- Modelled from the spec: getHostnameFromBucket
    else hostBase
  | none => hostBase

/-- Modelled from the spec: `check_bucket_name_dns_conformity` is not
under the sources and the spec does not define it; this stands in for a
DNS-conformity verdict (lower-case letters, digits, dots and hyphens). -/
def dnsConformityModel (b : String) : Bool :=
  b.data.all (fun c => c.isLower || c.isDigit || c = '.' || c = '-')

/-! ### Bucket creation: `S3.bucket_create` (lines 241-261) -/

/-- The request body built by `bucket_create` (lines 243-252): empty
unless a location other than "US" is given; the location is stripped,
upper-cased when it equals "EU" case-insensitively, and lower-cased
otherwise. -/
def bucketCreateBody (loc : Option String) : String :=
  match loc with
  | none => ""
  | some l =>
    if l ≠ "" ∧ pyUpper (pyStrip l) ≠ "US" then
      let s := pyStrip l
      let s := if pyUpper s = "EU" then pyUpper s else pyLower s
      "<CreateBucketConfiguration><LocationConstraint>" ++ s ++
        "</LocationConstraint></CreateBucketConfiguration>"
    else ""

/-- `S3.http_methods` (lines 98-105): the `BidirMap` of method bits. -/
def httpMethods : List (String × Nat) :=
  [("GET", 0x01), ("PUT", 0x02), ("HEAD", 0x04), ("DELETE", 0x08),
   ("POST", 0x20), ("MASK", 0xFF)]

/-- `S3.targets` (lines 107-112). -/
def targets : List (String × Nat) :=
  [("SERVICE", 0x0100), ("BUCKET", 0x0200), ("OBJECT", 0x0400), ("MASK", 0x0700)]

/-- `S3.operations` (lines 114-125): target bit or-ed with method bit. -/
def operations : List (String × Nat) :=
  [("UNDFINED", 0x0000),
   ("LIST_ALL_BUCKETS", 0x0100 ||| 0x01),
   ("BUCKET_CREATE", 0x0200 ||| 0x02),
   ("BUCKET_LIST", 0x0200 ||| 0x01),
   ("BUCKET_DELETE", 0x0200 ||| 0x08),
   ("OBJECT_PUT", 0x0400 ||| 0x02),
   ("OBJECT_GET", 0x0400 ||| 0x01),
   ("OBJECT_HEAD", 0x0400 ||| 0x04),
   ("OBJECT_POST", 0x0400 ||| 0x20),
   ("OBJECT_DELETE", 0x0400 ||| 0x08)]

/-- `BidirMap.getkey`: the key mapped to a given value. -/
def bidirGetKey (m : List (String × Nat)) (v : Nat) : Option String :=
  (m.find? (fun kv => kv.2 = v)).map Prod.fst

/-- `create_request` line 782: `S3.http_methods.getkey(S3.operations[operation]
& S3.http_methods["MASK"])`. -/
def methodForOperation (op : String) : Option String :=
  (List.lookup op operations).bind (fun code => bidirGetKey httpMethods (code &&& 0xFF))

/-! ### Request signing: `S3Request.sign` (lines 65-88)

The headers live in a `SortedDict(..., ignore_case = True)`.  `SortedDict`
is not under the sources; it is modelled from the spec (§9): a
case-insensitive map whose keys are canonicalized to lower case and whose
iteration order is the insertion order of the first write. -/

/-- Modelled from the spec: the `SortedDict` header map — an
insertion-ordered association list with lower-cased keys. -/
def hinsert (hm : List (String × String)) (k v : String) : List (String × String) :=
  let k' := pyLower k
  if hm.any (fun kv => kv.1 = k') then
    hm.map (fun kv => if kv.1 = k' then (k', v) else kv)
  else hm ++ [(k', v)]

/-- Build the header map by inserting the given pairs in order. -/
def buildHeaders (raw : List (String × String)) : List (String × String) :=
  raw.foldl (fun hm kv => hinsert hm kv.1 kv.2) []

/-- `self.headers.get(key, "")` on the header map. -/
def hget (hm : List (String × String)) (k : String) : String :=
  ((hm.find? (fun kv => kv.1 = k)).map Prod.snd).getD ""

/-- The query-parameter whitelist of `S3Request.sign` (line 79). -/
def signWhitelist : List String :=
  ["uploads", "partNumber", "uploadId", "acl", "location", "logging", "torrent"]

/-- The `tmp_params` accumulation of `S3Request.sign` (lines 77-83):
whitelisted parameters are appended as `&key=value`, or `&key` when the
value is the empty string. -/
def signParamsFold (params : List (String × String)) : String :=
  params.foldl
    (fun acc kv =>
      if signWhitelist.contains kv.1 then
        if kv.2 ≠ "" then acc ++ ("&" ++ kv.1 ++ "=" ++ kv.2)
        else acc ++ ("&" ++ kv.1)
      else acc) ""

/-- The truthiness test `if self.resource['bucket']:` (line 73) and the
`"/" + bucket` fragment it guards. -/
def bucketFragment (bucket : Option String) : String :=
  match bucket with
  | some b => if b ≠ "" then "/" ++ b else ""
  | none => ""

/-- The canonical string `h` built by `S3Request.sign` (lines 65-86):
method, `content-md5`, `content-type` and `date` values each followed by
a newline, then each `x-amz-`-prefixed header of the map as a
`name:value` line in iteration order, then the bucket fragment and the
resource uri, then `?` followed by `tmp_params[1:]` when any whitelisted
parameter is present. -/
def signCanonicalString (method : String) (hm : List (String × String))
    (bucket : Option String) (uri : String) (params : List (String × String)) : String :=
  let h1 := method ++ "\n" ++ hget hm "content-md5" ++ "\n" ++
    hget hm "content-type" ++ "\n" ++ hget hm "date" ++ "\n"
  let h2 := hm.foldl
    (fun acc kv =>
      if kv.1.startsWith "x-amz-" then acc ++ (kv.1 ++ ":" ++ kv.2 ++ "\n") else acc) h1
  let h3 := h2 ++ bucketFragment bucket ++ uri
  let tmp := signParamsFold params
  if tmp ≠ "" then h3 ++ "?" ++ strTail tmp else h3

/-- Concatenation of a list of strings. -/
def concatStrings : List String → String
  | [] => ""
  | x :: xs => x ++ concatStrings xs

/-- Join a list of strings with a separator. -/
def joinSep (sep : String) : List String → String
  | [] => ""
  | [x] => x
  | x :: y :: ys => x ++ sep ++ joinSep sep (y :: ys)

/-- The claim's wording of the `x-amz-` block: every header whose name
begins with `x-amz-`, as a lower-cased `name:value` line, in the map's
iteration order. -/
def claimXamzBlock (hm : List (String × String)) : String :=
  concatStrings ((hm.filter (fun kv => kv.1.startsWith "x-amz-")).map
    (fun kv => pyLower kv.1 ++ ":" ++ kv.2 ++ "\n"))

/-- The claim's wording of one query item: a key with an empty value
appears bare, without `=`. -/
def claimParamItem (kv : String × String) : String :=
  if kv.2 = "" then kv.1 else kv.1 ++ "=" ++ kv.2

/-- The claim's wording of the query suffix: a `?`-prefixed, `&`-joined
list of exactly the whitelisted query parameters. -/
def claimQueryPart (params : List (String × String)) : String :=
  match (params.filter (fun kv => signWhitelist.contains kv.1)).map claimParamItem with
  | [] => ""
  | x :: xs => "?" ++ joinSep "&" (x :: xs)

/-- The canonical string as described by the claim. -/
def claimCanonicalString (method : String) (hm : List (String × String))
    (bucket : Option String) (uri : String) (params : List (String × String)) : String :=
  method ++ "\n" ++ hget hm "content-md5" ++ "\n" ++ hget hm "content-type" ++ "\n" ++
    hget hm "date" ++ "\n" ++ claimXamzBlock hm ++ bucketFragment bucket ++ uri ++
    claimQueryPart params

/-- The invariants of a slice of the multipart-upload plan beginning at
part `i` and byte `offset`: non-empty, starting at `(i, offset)`, ending
at `fs - 1`, contiguous with consecutive part numbers, within bounds,
covering `[offset, fs)` exactly, pairwise disjoint, and no longer than
`count - i + 1` parts. -/
def PlanSpec (fs count i offset : Nat) (L : List Part) : Prop :=
  L ≠ [] ∧
  (∀ a ∈ L.head?, a.partNo = i ∧ a.startOff = offset) ∧
  (∀ a ∈ L.getLast?, a.endOff = fs - 1) ∧
  List.Chain' (fun a b => b.startOff = a.endOff + 1 ∧ b.partNo = a.partNo + 1) L ∧
  (∀ a ∈ L, offset ≤ a.startOff ∧ a.startOff ≤ a.endOff ∧ a.endOff < fs) ∧
  (∀ b, (offset ≤ b ∧ b < fs) ↔ ∃ a ∈ L, a.startOff ≤ b ∧ b ≤ a.endOff) ∧
  List.Pairwise (fun a b => a.endOff < b.startOff) L ∧
  L.length ≤ count - i + 1

/-! ### The completion body of `object_multipart_upload` (lines 410-460)

Worker threads record each finished part with
`part_upload_list[part_number] = etag` (line 441) into the plain Python
dict created at line 410, and the completion body iterates
`part_upload_list.keys()` (line 455).  `part_upload_list` is a raw
CPython 2 `dict`, so its iteration order is the slot-scan order of the
runtime's open-addressing hash table.  The table is modelled faithfully
after CPython 2.7's `dictobject.c`: power-of-two table sizes from
`PyDict_MINSIZE = 8`, `hash(int) = int`, the probe recurrence
`i = (5*i + perturb + 1) % size` with `perturb >>= 5` from `lookdict`,
and a resize to the smallest power of two above `4 * used` whenever
`fill * 3 >= size * 2` after an insertion. -/

/-- Sum `5^0 + 5^1 + ... + 5^(n-1)`, the additive constant of the iterated probe map. -/
def sumPow5 : Nat → Nat
  | 0 => 0
  | n + 1 => 5 * sumPow5 n + 1

/-- Iterate of `i ↦ (5*i + 1) % size`, the pure probe recurrence once the
perturbation has died out. -/
def lcgIter (size : Nat) : Nat → Nat → Nat
  | 0, i => i
  | n + 1, i => lcgIter size n ((5 * i + 1) % size)

/-- One slot entry of the CPython 2 dict table. -/
abbrev Slot := Option (Nat × String)

/-- The slot index where the probe may stop for key `k`: a free slot or a
slot already holding `k`. -/
def goodSlot (slots : List Slot) (k j : Nat) : Prop :=
  slots.getD j none = none ∨ ∃ v, slots.getD j none = some (k, v)

/-- CPython 2 `lookdict` specialized to distinct int keys and no dummies:
probe until a free slot or the key itself is found, following
`i = (i << 2) + i + perturb + 1; perturb >>= 5`, with the index reduced
modulo the (power-of-two) table size. -/
def findSlot (slots : List Slot) (size k : Nat) :
    Nat → Nat → Nat → Option Nat
  | 0, _, _ => none
  | fuel + 1, i, perturb =>
    match slots.getD i none with
    | none => some i
    | some (k', _) =>
      if k' = k then some i
      else findSlot slots size k fuel ((5 * i + perturb + 1) % size) (perturb >>> 5)

/-- The occupied entries of a table, in slot-scan order. -/
def entriesOf (slots : List Slot) : List (Nat × String) := slots.filterMap id

/-- Model of `insertdict` for a new key: probe, then write the entry into the
found slot.  The fuel `k + 1 + size` covers the probe's perturbation
phase (at most `k + 1` steps) plus a full cycle of the table. -/
def insertRaw (slots : List Slot) (size k : Nat) (v : String) : Option (List Slot) :=
  match findSlot slots size k (k + 1 + size) (k % size) k with
  | some i => some (slots.set i (some (k, v)))
  | none => none

/-- Every occupied slot holds the entry whose key equals the slot index. -/
def CanonicalSlots (slots : List Slot) : Prop :=
  ∀ j e, slots.getD j none = some e → e.1 = j

/-- Growth rule of `dictresize`: the new table size starts at `PyDict_MINSIZE = 8` and
doubles while it does not exceed `minused`. -/
def growSize (cur minused : Nat) : Nat :=
  if _h : 0 < cur ∧ cur ≤ minused then growSize (2 * cur) minused else cur
termination_by minused + 1 - cur
decreasing_by omega

/-- The reinsertion scan of `dictresize`: walk the old table's slots in
order and insert each occupied entry into the new table. -/
def reinsertAll (size : Nat) : List Slot → List Slot → Option (List Slot)
  | [], acc => some acc
  | none :: rest, acc => reinsertAll size rest acc
  | some (k, v) :: rest, acc =>
    match insertRaw acc size k v with
    | some acc' => reinsertAll size rest acc'
    | none => none

/-- The CPython 2 dict: a power-of-two open-addressing table. -/
structure PyDict where
  size : Nat
  slots : List Slot

/-- A fresh dict: `PyDict_MINSIZE = 8` empty slots. -/
def emptyDict : PyDict := ⟨8, List.replicate 8 none⟩

/-- Model of `PyDict_SetItem` for a new key: `insertdict`, then — since the key was
new — resize to the smallest power of two above `4 * fill` when
`fill * 3 >= size * 2` (no deletions, so `fill` = number of entries). -/
def dictInsert (d : PyDict) (k : Nat) (v : String) : Option PyDict :=
  match insertRaw d.slots d.size k v with
  | none => none
  | some slots' =>
    let fill := (entriesOf slots').length
    if fill * 3 ≥ d.size * 2 then
      let newsize := growSize 8 (4 * fill)
      match reinsertAll newsize slots' (List.replicate newsize none) with
      | some slots'' => some ⟨newsize, slots''⟩
      | none => none
    else some ⟨d.size, slots'⟩

/-- Build a dict by inserting the pairs in order. -/
def dictOfList (l : List (Nat × String)) : Option PyDict :=
  l.foldlM (fun d kv => dictInsert d kv.1 kv.2) emptyDict

/-- Iteration order of `dict.keys()`: scan the table slots in index order. -/
def dictKeys (d : PyDict) : List Nat := (entriesOf d.slots).map Prod.fst

/-- Subscript lookup `d[k]`: probe for the key, then read the slot. -/
def dictGet (d : PyDict) (k : Nat) : Option String :=
  match findSlot d.slots d.size k (k + 1 + d.size) (k % d.size) k with
  | some i =>
    match d.slots.getD i none with
    | some (_, v) => some v
    | none => none
  | none => none

/-- Invariant tying a dict to the multiset `E` of pairs inserted so far:
power-of-two size from 8 up, consistent lengths, the CPython load factor
bound, the entries a permutation of `E`, and — whenever every key fits
below the table size — the canonical home-slot layout. -/
def DictInv (E : List (Nat × String)) (d : PyDict) : Prop :=
  (∃ m, d.size = 2 ^ m) ∧ 8 ≤ d.size ∧ d.slots.length = d.size ∧
  3 * (entriesOf d.slots).length ≤ 2 * d.size ∧
  (entriesOf d.slots).Perm E ∧
  ((∀ x ∈ E.map Prod.fst, x < d.size) → CanonicalSlots d.slots)

/-- One iteration of the body loop (lines 456-459): the four `body +=`
fragments for one part number, with the ETag looked up as
`part_upload_list[part]`. -/
def partXmlFragment (d : PyDict) (part : Nat) : String :=
  "  <Part>\n" ++ "   <PartNumber>" ++ toString part ++ "</PartNumber>\n" ++
    "   <ETag>" ++ (dictGet d part).getD "" ++ "</ETag>\n" ++ "  </Part>\n"

/-- The CompleteMultipartUpload body built at lines 454-460: start from the
opening tag, fold the per-part fragments over `part_upload_list.keys()`,
close the document. -/
def completeMultipartBody (d : PyDict) : String :=
  ((dictKeys d).foldl (fun body part => body ++ partXmlFragment d part)
    "<CompleteMultipartUpload>\n") ++ "</CompleteMultipartUpload>"

/-- Claim-side shape of a single `<Part>` element carrying part number `k`
and ETag `e`. -/
def claimPartXml (k : Nat) (e : String) : String :=
  "  <Part>\n" ++ "   <PartNumber>" ++ toString k ++ "</PartNumber>\n" ++
    "   <ETag>" ++ e ++ "</ETag>\n" ++ "  </Part>\n"

/-! ## Theorems -/

/-! ### Claim C2: multipart plan invariants -/

/-- Unfolding of `planPartsAux` when the computed `end_offset` reaches
`file_size - 1`: the loop `break`s after a single part. -/
theorem planPartsAux_eq_single (fs p count i offset : Nat)
    (h1 : offset < fs) (h2 : 0 < p)
    (hE : (if offset + p - 1 < fs then (if i = count then fs - 1 else offset + p - 1)
           else fs - 1) = fs - 1) :
    planPartsAux fs p count i offset = [⟨i, offset, fs - 1⟩] := by
  rw [planPartsAux, dif_pos ⟨h1, h2⟩]
  simp [hE]

/-- Unfolding of `planPartsAux` when the computed `end_offset` falls
short of `file_size - 1`: the loop emits the part and continues. -/
theorem planPartsAux_eq_cons (fs p count i offset : Nat)
    (h1 : offset < fs) (h2 : 0 < p) (hlt : offset + p - 1 < fs) (hne : i ≠ count)
    (hfin : offset + p - 1 ≠ fs - 1) :
    planPartsAux fs p count i offset =
      ⟨i, offset, offset + p - 1⟩ :: planPartsAux fs p count (i + 1) (offset + p) := by
  rw [planPartsAux, dif_pos ⟨h1, h2⟩]
  simp [hlt, hne, hfin]

/-- A single final part `[offset, fs - 1]` satisfies the plan
invariants. -/
theorem planSpec_single (fs count i offset : Nat) (hoff : offset < fs) :
    PlanSpec fs count i offset [⟨i, offset, fs - 1⟩] := by
  refine ⟨by simp, by simp, by simp, by simp, ?_, ?_, by simp, by simp⟩
  · intro a ha
    simp only [List.mem_singleton] at ha
    subst ha
    refine ⟨le_refl _, by simp; omega, by simp; omega⟩
  · intro b
    constructor
    · rintro ⟨hb1, hb2⟩
      exact ⟨⟨i, offset, fs - 1⟩, by simp, by simpa using hb1, by simp; omega⟩
    · rintro ⟨a, ha, h1, h2⟩
      simp only [List.mem_singleton] at ha
      subst ha
      simp at h1 h2
      omega

/-- The planning loop of `object_multipart_upload` satisfies the plan
invariants from any in-range starting state. -/
theorem planPartsAux_spec (fs p count : Nat) (hp : 0 < p) :
    ∀ (n i offset : Nat), count - i = n → offset < fs → i ≤ count →
      PlanSpec fs count i offset (planPartsAux fs p count i offset) := by
  intro n
  induction n with
  | zero =>
    intro i offset hn hoff hic
    have hi : i = count := by omega
    have hE : (if offset + p - 1 < fs then (if i = count then fs - 1 else offset + p - 1)
        else fs - 1) = fs - 1 := by
      subst hi
      split <;> simp
    rw [planPartsAux_eq_single fs p count i offset hoff hp hE]
    exact planSpec_single fs count i offset hoff
  | succ n ih =>
    intro i offset hn hoff hic
    have hil : i < count := by omega
    by_cases hlt : offset + p - 1 < fs
    · by_cases hfin : offset + p - 1 = fs - 1
      · have hE : (if offset + p - 1 < fs then (if i = count then fs - 1 else offset + p - 1)
            else fs - 1) = fs - 1 := by
          rw [if_pos hlt]
          split
          · rfl
          · exact hfin
        rw [planPartsAux_eq_single fs p count i offset hoff hp hE]
        exact planSpec_single fs count i offset hoff
      · have hnext : offset + p < fs := by omega
        have hrec := ih (i + 1) (offset + p) (by omega) hnext (by omega)
        obtain ⟨hne, hhead, hlast, hchain, hbounds, hcover, hpair, hlen⟩ := hrec
        rw [planPartsAux_eq_cons fs p count i offset hoff hp hlt (by omega) hfin]
        refine ⟨by simp, by simp, ?_, ?_, ?_, ?_, ?_, ?_⟩
        · obtain ⟨y, ys, hys⟩ := List.exists_cons_of_ne_nil hne
          rw [hys, List.getLast?_cons_cons]
          rw [hys] at hlast
          exact hlast
        · refine List.chain'_cons'.mpr ⟨?_, hchain⟩
          intro b hb
          obtain ⟨hb1, hb2⟩ := hhead b hb
          constructor
          · simp
            omega
          · simp
            omega
        · intro a ha
          rcases List.mem_cons.mp ha with rfl | hmem
          · refine ⟨le_refl _, by simp; omega, by simpa using hlt⟩
          · have := hbounds a hmem
            refine ⟨by omega, this.2.1, this.2.2⟩
        · intro b
          constructor
          · rintro ⟨hb1, hb2⟩
            by_cases hb : b ≤ offset + p - 1
            · exact ⟨⟨i, offset, offset + p - 1⟩, List.mem_cons_self _ _,
                by simpa using hb1, by simpa using hb⟩
            · obtain ⟨a, haL, ha1, ha2⟩ := (hcover b).mp ⟨by omega, hb2⟩
              exact ⟨a, List.mem_cons_of_mem _ haL, ha1, ha2⟩
          · rintro ⟨a, ha, h1, h2⟩
            rcases List.mem_cons.mp ha with rfl | hmem
            · simp at h1 h2
              omega
            · have := (hcover b).mpr ⟨a, hmem, h1, h2⟩
              omega
        · refine List.pairwise_cons.mpr ⟨?_, hpair⟩
          intro a' ha'
          have := hbounds a' ha'
          simp
          omega
        · simp
          omega
    · have hE : (if offset + p - 1 < fs then (if i = count then fs - 1 else offset + p - 1)
          else fs - 1) = fs - 1 := by
        rw [if_neg hlt]
      rw [planPartsAux_eq_single fs p count i offset hoff hp hE]
      exact planSpec_single fs count i offset hoff

/-- C2: under the multipart entry condition
`file_size / parallel_multipart_upload_count ≥ 5 MiB`, the planned parts
are contiguous with consecutive part numbers, non-overlapping, and cover
`[0, file_size)` exactly: part 1 starts at offset 0, the last part ends
at `file_size - 1`, and the number of parts is at most the configured
part count. -/
theorem C2_multipart_plan_invariants (fs count : Nat)
    (hmin : minPartSize ≤ fs / count) :
    ∃ plan, objectMultipartUploadPlan fs count = some plan ∧
      plan ≠ [] ∧
      (∀ a ∈ plan.head?, a.partNo = 1 ∧ a.startOff = 0) ∧
      (∀ a ∈ plan.getLast?, a.endOff = fs - 1) ∧
      List.Chain' (fun a b => b.startOff = a.endOff + 1 ∧ b.partNo = a.partNo + 1) plan ∧
      (∀ a ∈ plan, a.startOff ≤ a.endOff ∧ a.endOff < fs) ∧
      (∀ b, b < fs ↔ ∃ a ∈ plan, a.startOff ≤ b ∧ b ≤ a.endOff) ∧
      List.Pairwise (fun a b => a.endOff < b.startOff) plan ∧
      plan.length ≤ count := by
  have hpmin : 0 < minPartSize := by norm_num [minPartSize]
  have hp : 0 < fs / count := lt_of_lt_of_le hpmin hmin
  have hcount : 1 ≤ count := by
    by_contra hc
    have hc0 : count = 0 := by omega
    rw [hc0, Nat.div_zero] at hp
    exact absurd hp (by simp)
  have hfs : 0 < fs := lt_of_lt_of_le hp (Nat.div_le_self fs count)
  have hspec := planPartsAux_spec fs (fs / count) count hp (count - 1) 1 0
    (by omega) hfs hcount
  obtain ⟨h1, h2, h3, h4, h5, h6, h7, h8⟩ := hspec
  refine ⟨planParts fs (fs / count) count, ?_, h1, h2, h3, h4, ?_, ?_, h7, ?_⟩
  · simp [objectMultipartUploadPlan, Nat.not_lt.mpr hmin, planParts]
  · intro a ha
    exact ⟨(h5 a ha).2.1, (h5 a ha).2.2⟩
  · intro b
    constructor
    · intro hb
      exact (h6 b).mp ⟨Nat.zero_le b, hb⟩
    · intro hex
      exact ((h6 b).mpr hex).2
  · have := h8
    simp only [planParts] at *
    omega

/-- C2 witness: a 15 MiB file split into 3 parts of exactly 5 MiB. -/
theorem C2_witness :
    minPartSize ≤ 15728640 / 3 ∧
    (∃ plan, objectMultipartUploadPlan 15728640 3 = some plan ∧
      plan ≠ [] ∧
      (∀ a ∈ plan.head?, a.partNo = 1 ∧ a.startOff = 0) ∧
      (∀ a ∈ plan.getLast?, a.endOff = 15728640 - 1) ∧
      List.Chain' (fun a b => b.startOff = a.endOff + 1 ∧ b.partNo = a.partNo + 1) plan ∧
      (∀ a ∈ plan, a.startOff ≤ a.endOff ∧ a.endOff < 15728640) ∧
      (∀ b, b < 15728640 ↔ ∃ a ∈ plan, a.startOff ≤ b ∧ b ≤ a.endOff) ∧
      List.Pairwise (fun a b => a.endOff < b.startOff) plan ∧
      plan.length ≤ 3) :=
  ⟨by decide, C2_multipart_plan_invariants 15728640 3 (by decide)⟩

/-! ### Claim C9: `bucket_create` location body -/

/-- C9 counterexample: `bucket_create("example-bucket", "eu-west-1")` does
not send the body with `<LocationConstraint>EU</LocationConstraint>`: the
location is lower-cased to `eu-west-1`, since only the exact string
"eu"/"EU" is upper-cased to `EU`. -/
theorem C9_counterexample_location_body :
    bucketCreateBody (some "eu-west-1") ≠
      "<CreateBucketConfiguration><LocationConstraint>EU</LocationConstraint></CreateBucketConfiguration>" := by
  decide

/-- C9 amended: `bucket_create` issues a PUT; with location "eu-west-1"
the body carries `<LocationConstraint>eu-west-1</LocationConstraint>`, and
the `EU` constraint is produced exactly for the locations "EU"/"eu". -/
theorem C9_amended_location_body :
    methodForOperation "BUCKET_CREATE" = some "PUT" ∧
    bucketCreateBody (some "eu-west-1") =
      "<CreateBucketConfiguration><LocationConstraint>eu-west-1</LocationConstraint></CreateBucketConfiguration>" ∧
    bucketCreateBody (some "EU") =
      "<CreateBucketConfiguration><LocationConstraint>EU</LocationConstraint></CreateBucketConfiguration>" ∧
    bucketCreateBody (some "eu") =
      "<CreateBucketConfiguration><LocationConstraint>EU</LocationConstraint></CreateBucketConfiguration>" := by
  refine ⟨by decide, by decide, by decide, by decide⟩

/-! ### Claim C8: `get_hostname` -/

/-- C8 counterexample: for a non-DNS-conformant bucket name the RedirMap
entry is ignored — `get_hostname` returns the configured `host_base`
although RedirMap has an entry for the bucket. -/
theorem C8_counterexample_redirmap_ignored :
    dnsConformityModel "MY_BUCKET" = false ∧
    getHostname dnsConformityModel [("MY_BUCKET", "redirected.example.com")]
        "s3.amazonaws.com" (some "MY_BUCKET") ≠ "redirected.example.com" := by
  decide

/-- C8 amended: the DNS-conformity test gates everything: for a truthy,
DNS-conformant bucket `get_hostname` returns the RedirMap entry when one
exists and `<bucket>.<host_base>` otherwise; for an empty or
non-conformant bucket it returns `host_base` even when a RedirMap entry
exists. -/
theorem C8_amended_hostname_cases :
    ∀ (dnsOk : String → Bool) (redirMap : List (String × String)) (hostBase b : String),
      (b ≠ "" → dnsOk b = true →
        (∀ h', List.lookup b redirMap = some h' →
          getHostname dnsOk redirMap hostBase (some b) = h') ∧
        (List.lookup b redirMap = none →
          getHostname dnsOk redirMap hostBase (some b) = b ++ "." ++ hostBase)) ∧
      ((b = "" ∨ dnsOk b = false) →
        getHostname dnsOk redirMap hostBase (some b) = hostBase) ∧
      getHostname dnsOk redirMap hostBase none = hostBase := by
  intro dnsOk redirMap hostBase b
  refine ⟨fun hb hdns => ⟨fun h' hl => ?_, fun hl => ?_⟩, fun h => ?_, rfl⟩
  · simp [getHostname, hb, hdns, hl]
  · simp [getHostname, hb, hdns, hl]
  · rcases h with h | h
    · simp [getHostname, h]
    · simp [getHostname, h]

/-- C8 witness: the amended cases at concrete inputs — a conformant bucket
with a RedirMap entry resolves to the entry; the non-conformant bucket of
the counterexample resolves to `host_base`. -/
theorem C8_witness :
    getHostname dnsConformityModel [("bkt", "redirected.example.com")]
        "s3.amazonaws.com" (some "bkt") = "redirected.example.com" ∧
    getHostname dnsConformityModel [("MY_BUCKET", "redirected.example.com")]
        "s3.amazonaws.com" (some "MY_BUCKET") = "s3.amazonaws.com" :=
  ⟨((C8_amended_hostname_cases dnsConformityModel
      [("bkt", "redirected.example.com")] "s3.amazonaws.com" "bkt").1
      (by decide) (by decide)).1 "redirected.example.com" (by decide),
   (C8_amended_hostname_cases dnsConformityModel
      [("MY_BUCKET", "redirected.example.com")] "s3.amazonaws.com" "MY_BUCKET").2.1
      (Or.inr (by decide))⟩

/-! ### Claim C7: multipart fallback below the 5 MiB minimum -/

/-- C7: when `file_size / parallel_multipart_upload_count` is below
5 MiB, `object_multipart_upload` falls back to the single-part
`object_put` and never issues the `POST ?uploads` initiate request. -/
theorem C7_fallback_below_min_part_size (fs count : Nat)
    (h : fs / count < minPartSize) :
    objectMultipartUploadActions fs count = [MpAction.objectPutFallback] ∧
    objectMultipartUploadPlan fs count = none ∧
    MpAction.initiateUploads ∉ objectMultipartUploadActions fs count := by
  refine ⟨?_, ?_, ?_⟩ <;>
    simp [objectMultipartUploadActions, objectMultipartUploadPlan, h]

/-- C7 witness: a 1 MB file with a single-part configuration falls back. -/
theorem C7_witness :
    1000000 / 1 < minPartSize ∧
    (objectMultipartUploadActions 1000000 1 = [MpAction.objectPutFallback] ∧
      objectMultipartUploadPlan 1000000 1 = none ∧
      MpAction.initiateUploads ∉ objectMultipartUploadActions 1000000 1) :=
  ⟨by decide, C7_fallback_below_min_part_size 1000000 1 (by decide)⟩

/-! ### Claim C4: the ranged mid-stream retry of `recv_file` -/

/-- C4: a ranged download (`end_position = 9`) that hits a body exception
after 3 bytes retries from `current_position = 3` with one unit of budget
consumed, but the recursive call at line 1085 omits `end_position`, which
therefore falls back to its default `-1` — the retry requests
`3..` instead of the `3..9` the claim (and spec §4.6) describe. -/
theorem C4_ranged_retry_drops_upper_bound :
    recvFileTrace [RecvOutcome.body [[9, 9, 9]] true, RecvOutcome.body [[7]] false] 0 5 9 =
      [⟨0, 5, 9, [(0, [9, 9, 9])]⟩, ⟨3, 4, -1, [(0, [7])]⟩] := by
  decide

/-! ### Claim C6: retry wait times -/

/-- C6 counterexample: starting from the full budget of 5 against a
server that keeps answering 500, `send_request` sleeps `[3, 6, 9, 12, 15]`
seconds — not `[6, 9, 12, 15, 18]`; the first failed attempt (budget 5,
post-decrement budget 4) waits `3` seconds and not
`(max_retries − 4 + 1) × 3 = 6`: `_fail_wait` is evaluated on the budget
*before* the decrement. -/
theorem C6_counterexample_wait_sequence :
    (sendRequestTrace [ReqOutcome.ok 500, ReqOutcome.ok 500, ReqOutcome.ok 500,
        ReqOutcome.ok 500, ReqOutcome.ok 500, ReqOutcome.ok 500] 5).filterMap
        (fun a => a.sleepAfter) = [3, 6, 9, 12, 15] ∧
    [3, 6, 9, 12, 15] ≠ [6, 9, 12, 15, 18] ∧
    (sendRequestTrace [ReqOutcome.ok 500, ReqOutcome.ok 200] 5).map
        (fun a => (a.budget, a.sleepAfter)) = [(5, some 3), (4, none)] ∧
    (3 : Nat) ≠ (maxRetries - 4 + 1) * 3 := by
  refine ⟨by decide, by decide, by decide, by decide⟩

/-- C6 amended: every sleep of `send_request` equals
`(max_retries − retries + 1) × 3` where `retries` is the budget of the
failing attempt *before* the decrement; from a full budget of 5 the
successive waits are `[3, 6, 9, 12, 15]`. -/
theorem C6_amended_wait_formula :
    (∀ (oracle : List ReqOutcome) (r : Nat), ∀ a ∈ sendRequestTrace oracle r,
      a.sleepAfter = none ∨ a.sleepAfter = some ((maxRetries - a.budget + 1) * 3)) ∧
    (sendRequestTrace [ReqOutcome.ok 500, ReqOutcome.ok 500, ReqOutcome.ok 500,
        ReqOutcome.ok 500, ReqOutcome.ok 500, ReqOutcome.ok 500] 5).filterMap
        (fun a => a.sleepAfter) = [3, 6, 9, 12, 15] := by
  constructor
  · intro oracle
    induction oracle with
    | nil => intro r a ha; simp [sendRequestTrace] at ha
    | cons o rest ih =>
      intro r a ha
      cases o with
      | exc =>
        simp only [sendRequestTrace] at ha
        split at ha
        · rcases List.mem_cons.mp ha with rfl | h
          · right; rfl
          · exact ih (r - 1) a h
        · simp only [List.mem_singleton] at ha
          subst ha
          left; rfl
      | ok s =>
        simp only [sendRequestTrace] at ha
        split at ha
        · rcases List.mem_cons.mp ha with rfl | h
          · left; rfl
          · exact ih maxRetries a h
        · split at ha
          · split at ha
            · rcases List.mem_cons.mp ha with rfl | h
              · right; rfl
              · exact ih (r - 1) a h
            · simp only [List.mem_singleton] at ha
              subst ha
              left; rfl
          · simp only [List.mem_singleton] at ha
            subst ha
            left; rfl
  · decide

/-- C6 witness: the first attempt of a failing request with the full
budget of 5 sleeps 3 seconds, matching the amended formula. -/
theorem C6_witness :
    (⟨5, ReqOutcome.ok 500, some 3⟩ : ReqAttempt) ∈
      sendRequestTrace [ReqOutcome.ok 500, ReqOutcome.ok 200] 5 ∧
    ((some 3 : Option Nat) = none ∨
      (some 3 : Option Nat) = some ((maxRetries - 5 + 1) * 3)) :=
  ⟨by decide,
   C6_amended_wait_formula.1 [ReqOutcome.ok 500, ReqOutcome.ok 200] 5
     ⟨5, ReqOutcome.ok 500, some 3⟩ (by decide)⟩

/-! ### Claim C3: retry-budget evolution across attempts -/

/-- The first attempt of a `send_request` trace runs with the budget the
call was given. -/
theorem sendRequestTrace_head_budget (oracle : List ReqOutcome) (r : Nat) :
    ∀ a ∈ (sendRequestTrace oracle r).head?, a.budget = r := by
  cases oracle with
  | nil => simp [sendRequestTrace]
  | cons o rest =>
    cases o with
    | exc =>
      simp only [sendRequestTrace]
      split <;> simp
    | ok s =>
      simp only [sendRequestTrace]
      split
      · simp
      · split
        · split <;> simp
        · simp

/-- The first attempt of a `send_file` trace runs with the value the
`retries` parameter was given. -/
theorem sendFileTrace_head_budget (oracle : List SendOutcome) (t r : PyVal)
    (pinf : Option Unit) :
    ∀ a ∈ (sendFileTrace oracle t r pinf).head?, a.budget = r := by
  cases oracle with
  | nil => simp [sendFileTrace]
  | cons o rest => simp [sendFileTrace]

/-- C3 counterexample: the budget is not monotone.  In `send_request`,
the trace `500, 307, 500, 200` from a budget of 5 runs with budgets
`[5, 4, 5, 4]`: the 307 retry resets the budget to the *default*
`_max_retries` instead of keeping it at 4.  In `send_file`, a 307 retry
passes the old budget positionally into the `throttle` parameter and
`part_info` into the `retries` parameter, so with `part_info = None` the
attempt after a 307 runs with budget `None` — neither the unchanged
budget 5 nor the decremented 4. -/
theorem C3_counterexample_budget_not_monotone :
    ¬ List.Chain'
        (fun a b => b.budget = if a.outcome.is307 then a.budget else a.budget - 1)
        (sendRequestTrace [ReqOutcome.ok 500, ReqOutcome.ok 307,
          ReqOutcome.ok 500, ReqOutcome.ok 200] 5) ∧
    (sendRequestTrace [ReqOutcome.ok 500, ReqOutcome.ok 307,
        ReqOutcome.ok 500, ReqOutcome.ok 200] 5).map (fun a => a.budget) = [5, 4, 5, 4] ∧
    (sendFileTrace [SendOutcome.resp 307 false false, SendOutcome.connExc]
        (PyVal.num 0) (PyVal.num 5) none).map (fun a => a.budget) =
      [PyVal.num 5, PyVal.noneV] ∧
    PyVal.noneV ≠ PyVal.num 5 ∧ PyVal.noneV ≠ PyVal.num 4 := by
  refine ⟨?_, by decide, by decide, by decide, by decide⟩
  intro hch
  have htr : sendRequestTrace [ReqOutcome.ok 500, ReqOutcome.ok 307,
      ReqOutcome.ok 500, ReqOutcome.ok 200] 5 =
      [⟨5, ReqOutcome.ok 500, some 3⟩, ⟨4, ReqOutcome.ok 307, none⟩,
       ⟨5, ReqOutcome.ok 500, some 3⟩, ⟨4, ReqOutcome.ok 200, none⟩] := by decide
  rw [htr] at hch
  simp [List.chain'_cons, ReqOutcome.is307] at hch

/-- C3 amended: in `send_request` each retried failure decrements the
budget by one, while a 307 retry restarts with the default
`_max_retries`; in `send_file` each retried failure decrements the
budget, while a 307 retry installs `part_info` as the new budget (`None`
for a single-part upload, the part dict for a part upload) because the
recursive call at line 953 passes its arguments positionally. -/
theorem C3_amended_budget_transitions :
    (∀ (oracle : List ReqOutcome) (r : Nat),
      List.Chain'
        (fun a b => b.budget = if a.outcome.is307 then maxRetries else a.budget - 1)
        (sendRequestTrace oracle r)) ∧
    (∀ (oracle : List SendOutcome) (t r : PyVal) (pinf : Option Unit),
      List.Chain'
        (fun a b => b.budget =
          if a.outcome.is307 then pyOfPartInfo a.partInfo else pyDec a.budget)
        (sendFileTrace oracle t r pinf)) := by
  constructor
  · intro oracle
    induction oracle with
    | nil => intro r; simp [sendRequestTrace]
    | cons o rest ih =>
      intro r
      cases o with
      | exc =>
        simp only [sendRequestTrace]
        split
        · refine List.chain'_cons'.mpr ⟨?_, ih (r - 1)⟩
          intro b hb
          have hbudget := sendRequestTrace_head_budget rest (r - 1) b hb
          simp [ReqOutcome.is307, hbudget]
        · simp
      | ok s =>
        simp only [sendRequestTrace]
        split
        · rename_i h307
          refine List.chain'_cons'.mpr ⟨?_, ih maxRetries⟩
          intro b hb
          have hbudget := sendRequestTrace_head_budget rest maxRetries b hb
          simp [ReqOutcome.is307, h307, hbudget]
        · rename_i h307
          split
          · split
            · refine List.chain'_cons'.mpr ⟨?_, ih (r - 1)⟩
              intro b hb
              have hbudget := sendRequestTrace_head_budget rest (r - 1) b hb
              simp [ReqOutcome.is307, h307, hbudget]
            · simp
          · simp
  · intro oracle
    induction oracle with
    | nil => intro t r pinf; simp [sendFileTrace]
    | cons o rest ih =>
      intro t r pinf
      cases o with
      | connExc =>
        cases r with
        | num n =>
          simp only [sendFileTrace]
          split
          · refine List.chain'_cons'.mpr ⟨?_, ih t (PyVal.num (n - 1)) pinf⟩
            intro b hb
            have hbudget := sendFileTrace_head_budget rest t (PyVal.num (n - 1)) pinf b hb
            simp [SendOutcome.is307, hbudget, pyDec]
          · simp
        | noneV => simp [sendFileTrace, pyTruthy]
        | dictV => simp [sendFileTrace, pyTruthy]
      | bodyExc =>
        cases r with
        | num n =>
          simp only [sendFileTrace]
          split
          · split
            · cases t with
              | num m =>
                simp only [pyThrottleBump]
                refine List.chain'_cons'.mpr
                  ⟨?_, ih (PyVal.num (if m ≠ 0 then m * 5 else 1)) (PyVal.num (n - 1)) pinf⟩
                intro b hb
                have hbudget := sendFileTrace_head_budget rest
                  (PyVal.num (if m ≠ 0 then m * 5 else 1)) (PyVal.num (n - 1)) pinf b hb
                simp [SendOutcome.is307, hbudget, pyDec]
              | noneV =>
                simp only [pyThrottleBump]
                refine List.chain'_cons'.mpr ⟨?_, ih (PyVal.num 1) (PyVal.num (n - 1)) pinf⟩
                intro b hb
                have hbudget := sendFileTrace_head_budget rest
                  (PyVal.num 1) (PyVal.num (n - 1)) pinf b hb
                simp [SendOutcome.is307, hbudget, pyDec]
              | dictV => simp [pyThrottleBump]
            · refine List.chain'_cons'.mpr ⟨?_, ih t (PyVal.num (n - 1)) pinf⟩
              intro b hb
              have hbudget := sendFileTrace_head_budget rest t (PyVal.num (n - 1)) pinf b hb
              simp [SendOutcome.is307, hbudget, pyDec]
          · simp
        | noneV => simp [sendFileTrace, pyTruthy]
        | dictV => simp [sendFileTrace, pyTruthy]
      | resp s rc em =>
        simp only [sendFileTrace]
        split
        · rename_i h307
          refine List.chain'_cons'.mpr ⟨?_, ih r (pyOfPartInfo pinf) none⟩
          intro b hb
          have hbudget := sendFileTrace_head_budget rest r (pyOfPartInfo pinf) none b hb
          simp [SendOutcome.is307, h307, hbudget]
        · rename_i h307
          split
          · split
            · cases r with
              | num n =>
                split
                · refine List.chain'_cons'.mpr ⟨?_, ih t (PyVal.num (n - 1)) pinf⟩
                  intro b hb
                  have hbudget := sendFileTrace_head_budget rest t (PyVal.num (n - 1)) pinf b hb
                  simp [SendOutcome.is307, h307, hbudget, pyDec]
                · simp
              | noneV => simp [pyTruthy]
              | dictV => simp [pyTruthy]
            · simp
          · split
            · cases r with
              | num n =>
                split
                · refine List.chain'_cons'.mpr ⟨?_, ih t (PyVal.num (n - 1)) pinf⟩
                  intro b hb
                  have hbudget := sendFileTrace_head_budget rest t (PyVal.num (n - 1)) pinf b hb
                  simp [SendOutcome.is307, h307, hbudget, pyDec]
                · simp
              | noneV => simp [pyTruthy]
              | dictV => simp [pyTruthy]
            · simp

/-! ### Claim C10: `recv_file` always writes from stream position 0 -/

/-- C10: on every call of `recv_file` — including ranged downloads with
`start_position > 0` and the recursive mid-stream retry calls — the
stream is seeked to position 0 before the body loop, so the recorded
writes of each attempt start at stream position 0 and advance by the
chunk lengths, never at offset `start_position`. -/
theorem C10_stream_seek_zero :
    ∀ (oracle : List RecvOutcome) (s r : Nat) (e : Int),
      ∀ a ∈ recvFileTrace oracle s r e,
        a.writes = writeEvents 0 (a.writes.map Prod.snd) ∧
        ∀ w ∈ a.writes.head?, w.1 = 0 := by
  have hmap : ∀ (p : Nat) (cs : List (List Nat)),
      (writeEvents p cs).map Prod.snd = cs := by
    intro p cs
    induction cs generalizing p with
    | nil => simp [writeEvents]
    | cons c cs ih => simp [writeEvents, ih]
  have hattempt : ∀ (cs : List (List Nat)),
      writeEvents 0 cs = writeEvents 0 ((writeEvents 0 cs).map Prod.snd) ∧
      ∀ w ∈ (writeEvents 0 cs).head?, w.1 = 0 := by
    intro cs
    refine ⟨by rw [hmap], ?_⟩
    cases cs with
    | nil => simp [writeEvents]
    | cons c cs => simp [writeEvents]
  intro oracle
  induction oracle with
  | nil => intro s r e a ha; simp [recvFileTrace] at ha
  | cons o rest ih =>
    intro s r e a ha
    cases o with
    | connExc =>
      simp only [recvFileTrace] at ha
      split at ha
      · rcases List.mem_cons.mp ha with rfl | h
        · exact ⟨rfl, by simp [writeEvents]⟩
        · exact ih s (r - 1) e a h
      · simp only [List.mem_singleton] at ha
        subst ha
        exact ⟨rfl, by simp [writeEvents]⟩
    | redirect307 =>
      simp only [recvFileTrace] at ha
      rcases List.mem_cons.mp ha with rfl | h
      · exact ⟨rfl, by simp [writeEvents]⟩
      · exact ih s r e a h
    | failStatus st =>
      simp only [recvFileTrace, List.mem_singleton] at ha
      subst ha
      exact ⟨rfl, by simp [writeEvents]⟩
    | body chunks exc =>
      simp only [recvFileTrace] at ha
      split at ha
      · split at ha
        · split at ha
          · rcases List.mem_cons.mp ha with rfl | h
            · exact hattempt chunks
            · exact ih (s + (chunks.map List.length).sum) (r - 1) (-1) a h
          · rcases List.mem_cons.mp ha with rfl | h
            · exact hattempt chunks
            · exact ih s (r - 1) e a h
        · simp only [List.mem_singleton] at ha
          subst ha
          exact hattempt chunks
      · simp only [List.mem_singleton] at ha
        subst ha
        exact hattempt chunks

/-- C10 witness: a ranged download starting at position 5 whose first
attempt dies mid-stream after chunks of 2 and 1 bytes: that attempt's
writes sit at stream positions 0 and 2, not at 5. -/
theorem C10_witness :
    (⟨5, 5, -1, [(0, [1, 2]), (2, [3])]⟩ : RecvAttempt) ∈
      recvFileTrace [RecvOutcome.body [[1, 2], [3]] true,
        RecvOutcome.body [[4]] false] 5 5 (-1) ∧
    ([(0, [1, 2]), (2, [3])] : List (Nat × List Nat)) =
      writeEvents 0 ([(0, [1, 2]), (2, [3])].map Prod.snd) ∧
    (∀ w ∈ ([(0, [1, 2]), (2, [3])] : List (Nat × List Nat)).head?, w.1 = 0) :=
  ⟨by decide,
   (C10_stream_seek_zero [RecvOutcome.body [[1, 2], [3]] true,
      RecvOutcome.body [[4]] false] 5 5 (-1)
      ⟨5, 5, -1, [(0, [1, 2]), (2, [3])]⟩ (by decide)).1,
   (C10_stream_seek_zero [RecvOutcome.body [[1, 2], [3]] true,
      RecvOutcome.body [[4]] false] 5 5 (-1)
      ⟨5, 5, -1, [(0, [1, 2]), (2, [3])]⟩ (by decide)).2⟩

/-! ### Claim C1: the canonical string of `S3Request.sign` -/

/-- Dropping the first character of `"&" ++ t` yields `t`. -/
theorem strTail_amp (t : String) : strTail ("&" ++ t) = t := by
  apply String.ext
  simp [strTail, String.data_append]

/-- `"&" ++ t` is never the empty string. -/
theorem amp_append_ne_empty (t : String) : "&" ++ t ≠ "" := by
  intro h
  have hdata := congrArg String.data h
  rw [String.data_append] at hdata
  rw [show ("&".data) = ['&'] from rfl, show ("".data) = ([] : List Char) from rfl] at hdata
  simp at hdata

/-- A filtered accumulating fold of string pieces equals the accumulator
followed by the concatenation of the pieces of the kept elements. -/
theorem foldl_filter_append {α : Type} (P : α → Bool) (f : α → String) :
    ∀ (l : List α) (acc : String),
      List.foldl (fun acc x => if P x then acc ++ f x else acc) acc l =
        acc ++ concatStrings ((l.filter P).map f) := by
  intro l
  induction l with
  | nil => intro acc; simp [concatStrings]
  | cons x xs ih =>
    intro acc
    by_cases hx : P x
    · simp only [List.foldl_cons, List.filter_cons, hx, if_pos, List.map_cons]
      rw [ih (acc ++ f x)]
      simp [concatStrings, String.append_assoc]
    · simp only [List.foldl_cons, List.filter_cons, hx, if_neg]
      simp only [Bool.false_eq_true, if_false]
      exact ih acc

/-- `Char.ofNat` of a valid code point has that code point. -/
theorem char_toNat_ofNat (n : Nat) (h : n.isValidChar) : (Char.ofNat n).toNat = n := by
  simp [Char.ofNat, h, Char.ofNatAux, Char.toNat]
  rfl

/-- Python's per-character lower-casing is idempotent. -/
theorem pyLowerChar_idem (c : Char) : pyLowerChar (pyLowerChar c) = pyLowerChar c := by
  unfold pyLowerChar
  by_cases h : 65 ≤ c.toNat ∧ c.toNat ≤ 90
  · rw [if_pos h]
    have hv : (c.toNat + 32).isValidChar := by
      left
      omega
    rw [char_toNat_ofNat _ hv]
    rw [if_neg (by omega)]
  · rw [if_neg h]
    rw [if_neg h]

/-- Python's `str.lower()` is idempotent. -/
theorem pyLower_idem (s : String) : pyLower (pyLower s) = pyLower s := by
  apply String.ext
  show (s.data.map pyLowerChar).map pyLowerChar = s.data.map pyLowerChar
  rw [List.map_map]
  exact List.map_congr_left fun c _ => pyLowerChar_idem c

/-- `hinsert` keeps every key of the header map lower-cased. -/
theorem hinsert_keys_lowered (hm : List (String × String)) (k v : String)
    (h : ∀ kv ∈ hm, pyLower kv.1 = kv.1) :
    ∀ kv ∈ hinsert hm k v, pyLower kv.1 = kv.1 := by
  intro kv hkv
  simp only [hinsert] at hkv
  split at hkv
  · simp only [List.mem_map] at hkv
    obtain ⟨kv', hkv', rfl⟩ := hkv
    by_cases he : kv'.1 = pyLower k
    · simp only [he, if_pos]
      exact pyLower_idem k
    · simp only [he, if_neg]
      simp only [Bool.false_eq_true, if_false]
      exact h kv' hkv'
  · rcases List.mem_append.mp hkv with hmem | hmem
    · exact h kv hmem
    · simp only [List.mem_singleton] at hmem
      subst hmem
      exact pyLower_idem k

/-- Every key of a built header map is lower-cased: the `SortedDict`
canonicalizes on insertion. -/
theorem buildHeaders_keys_lowered (raw : List (String × String)) :
    ∀ kv ∈ buildHeaders raw, pyLower kv.1 = kv.1 := by
  suffices h : ∀ (hm : List (String × String)), (∀ kv ∈ hm, pyLower kv.1 = kv.1) →
      ∀ kv ∈ raw.foldl (fun hm kv => hinsert hm kv.1 kv.2) hm, pyLower kv.1 = kv.1 by
    exact h [] (by simp)
  induction raw with
  | nil =>
    intro hm h kv hkv
    exact h kv hkv
  | cons x xs ih =>
    intro hm h kv hkv
    simp only [List.foldl_cons] at hkv
    exact ih (hinsert hm x.1 x.2) (hinsert_keys_lowered hm x.1 x.2 h) kv hkv

/-- The `x-amz-` fold of `sign` emits exactly the claim's block: since
all stored keys are lower-cased, emitting them verbatim emits the
lower-cased names. -/
theorem xamz_fold_eq (hm : List (String × String)) (h1 : String)
    (hlow : ∀ kv ∈ hm, pyLower kv.1 = kv.1) :
    hm.foldl
      (fun acc kv =>
        if kv.1.startsWith "x-amz-" then acc ++ (kv.1 ++ ":" ++ kv.2 ++ "\n") else acc) h1 =
      h1 ++ claimXamzBlock hm := by
  rw [foldl_filter_append (fun kv => kv.1.startsWith "x-amz-")
    (fun kv => kv.1 ++ ":" ++ kv.2 ++ "\n") hm h1]
  unfold claimXamzBlock
  congr 1
  congr 1
  apply List.map_congr_left
  intro kv hkv
  rw [hlow kv (List.mem_of_mem_filter hkv)]

/-- The `tmp_params` fold of `sign` equals the concatenation of
`&`-prefixed claim items over the whitelisted parameters. -/
theorem signParamsFold_eq (params : List (String × String)) :
    signParamsFold params =
      concatStrings ((params.filter (fun kv => signWhitelist.contains kv.1)).map
        (fun kv => "&" ++ claimParamItem kv)) := by
  unfold signParamsFold
  have hstep : (fun (acc : String) (kv : String × String) =>
      if signWhitelist.contains kv.1 then
        if kv.2 ≠ "" then acc ++ ("&" ++ kv.1 ++ "=" ++ kv.2) else acc ++ ("&" ++ kv.1)
      else acc) =
      (fun acc kv =>
        if signWhitelist.contains kv.1 then acc ++ ("&" ++ claimParamItem kv) else acc) := by
    funext acc kv
    by_cases hw : signWhitelist.contains kv.1
    · simp only [hw, if_pos]
      by_cases hv : kv.2 = ""
      · simp [claimParamItem, hv]
      · simp [claimParamItem, hv, String.append_assoc]
    · simp only [hw]
      simp only [Bool.false_eq_true, if_false]
  rw [hstep, foldl_filter_append (fun kv => signWhitelist.contains kv.1)
    (fun kv => "&" ++ claimParamItem kv) params ""]
  rw [String.empty_append]

/-- Concatenating `&`-prefixed items equals `&` followed by the
`&`-joined items. -/
theorem concat_amp_joinSep :
    ∀ (x : String) (xs : List String),
      concatStrings ((x :: xs).map (fun s => "&" ++ s)) = "&" ++ joinSep "&" (x :: xs) := by
  intro x xs
  induction xs generalizing x with
  | nil => simp [concatStrings, joinSep]
  | cons y ys ih =>
    simp only [List.map_cons, concatStrings, joinSep] at *
    rw [ih y]
    simp [String.append_assoc]

/-- C1: for every signed request, the canonical string fed to HMAC-SHA1
is the method, `Content-MD5`, `Content-Type` and `Date` values each
newline-terminated, the `x-amz-` headers as lower-cased `name:value`
lines in the map's iteration order, `/<bucket>` when the resource has a
bucket, the resource uri, and a `?`-prefixed `&`-joined list of exactly
the whitelisted query parameters with empty-valued keys appearing bare. -/
theorem C1_sign_canonical_string (method : String) (raw : List (String × String))
    (bucket : Option String) (uri : String) (params : List (String × String)) :
    signCanonicalString method (buildHeaders raw) bucket uri params =
      claimCanonicalString method (buildHeaders raw) bucket uri params := by
  unfold signCanonicalString claimCanonicalString
  simp only []
  rw [xamz_fold_eq _ _ (buildHeaders_keys_lowered raw)]
  rcases hcase : (params.filter (fun kv => signWhitelist.contains kv.1)).map claimParamItem
    with _ | ⟨x, xs⟩
  · have hfilter : params.filter (fun kv => signWhitelist.contains kv.1) = [] := by
      exact List.map_eq_nil_iff.mp hcase
    have htmp : signParamsFold params = "" := by
      rw [signParamsFold_eq, hfilter]
      simp [concatStrings]
    have hq : claimQueryPart params = "" := by
      unfold claimQueryPart
      rw [hcase]
    rw [htmp, hq]
    simp [String.append_assoc, String.append_empty]
  · have hmm : (params.filter (fun kv => signWhitelist.contains kv.1)).map
        (fun kv => "&" ++ claimParamItem kv) =
        ((params.filter (fun kv => signWhitelist.contains kv.1)).map claimParamItem).map
          (fun s => "&" ++ s) := by
      rw [List.map_map]
      rfl
    have htmp : signParamsFold params = "&" ++ joinSep "&" (x :: xs) := by
      rw [signParamsFold_eq, hmm, hcase, concat_amp_joinSep]
    have hq : claimQueryPart params = "?" ++ joinSep "&" (x :: xs) := by
      unfold claimQueryPart
      rw [hcase]
    rw [htmp, strTail_amp, if_pos (amp_append_ne_empty _), hq]
    simp [String.append_assoc]

/-! ### Claim C5: the completion body lists parts in ascending order -/

theorem sumPow5_identity (n : Nat) : 4 * sumPow5 n + 1 = 5 ^ n := by
  induction n with
  | zero => rfl
  | succ n ih =>
    rw [sumPow5, pow_succ, ← ih]
    ring

theorem lcgIter_lt (size : Nat) (hs : 0 < size) :
    ∀ (n i : Nat), i < size → lcgIter size n i < size := by
  intro n
  induction n with
  | zero => intro i hi; exact hi
  | succ n ih => intro i _; exact ih _ (Nat.mod_lt _ hs)

theorem lcgIter_add (size : Nat) :
    ∀ (y x i : Nat), lcgIter size (x + y) i = lcgIter size x (lcgIter size y i) := by
  intro y
  induction y with
  | zero => intro x i; rfl
  | succ y ih =>
    intro x i
    rw [Nat.add_succ, lcgIter, ih]
    rfl

theorem lcgIter_formula (size : Nat) (hs : 0 < size) :
    ∀ (n i : Nat), i < size → lcgIter size n i = (5 ^ n * i + sumPow5 n) % size := by
  intro n
  induction n with
  | zero =>
    intro i hi
    simp [lcgIter, sumPow5, Nat.mod_eq_of_lt hi]
  | succ n ih =>
    intro i hi
    rw [lcgIter, ih _ (Nat.mod_lt _ hs)]
    have hmod : 5 ^ n * ((5 * i + 1) % size) + sumPow5 n ≡
        5 ^ n * (5 * i + 1) + sumPow5 n [MOD size] :=
      ((Nat.mod_modEq (5 * i + 1) size).mul_left (5 ^ n)).add_right _
    rw [Nat.ModEq] at hmod
    rw [hmod]
    congr 1
    have h1 : 5 ^ n * (5 * i + 1) = 5 ^ n * 5 * i + 5 ^ n := by ring
    have h2 : 4 * sumPow5 n + 1 = 5 ^ n := sumPow5_identity n
    rw [sumPow5, pow_succ, h1]
    omega

theorem one_add_pow_expand (x : Nat) :
    ∀ (e : Nat), ∃ K, (1 + x) ^ e = 1 + e * x + x ^ 2 * K := by
  intro e
  induction e with
  | zero => exact ⟨0, by ring⟩
  | succ e ih =>
    obtain ⟨K, hK⟩ := ih
    exact ⟨K + e + x * K, by rw [pow_succ, hK]; ring⟩

theorem five_pow_two_pow (m : Nat) :
    ∃ u, u % 2 = 1 ∧ 5 ^ (2 ^ m) = 1 + 2 ^ (m + 2) * u := by
  induction m with
  | zero => exact ⟨1, rfl, rfl⟩
  | succ m ih =>
    obtain ⟨u, hu, he⟩ := ih
    refine ⟨u + 2 ^ (m + 1) * u ^ 2, ?_, ?_⟩
    · have hev : 2 ^ (m + 1) * u ^ 2 = 2 * (2 ^ m * u ^ 2) := by
        rw [pow_succ]
        ring
      omega
    · have hsq : 5 ^ (2 ^ (m + 1)) = (5 ^ (2 ^ m)) ^ 2 := by
        rw [← pow_mul, pow_succ]
      rw [hsq, he]
      have hb2 : (2 : Nat) ^ (m + 2) = 2 * 2 ^ (m + 1) := by
        rw [pow_succ]
        ring
      have hb3 : (2 : Nat) ^ (m + 3) = 2 * (2 * 2 ^ (m + 1)) := by
        rw [pow_succ, pow_succ]
        ring
      rw [hb2, hb3]
      ring

theorem pow_two_dvd_of_five_pow (m : Nat) :
    ∀ (d : Nat), 0 < d → (∃ t, 5 ^ d = 1 + 2 ^ (m + 2) * t) → 2 ^ m ∣ d := by
  induction m with
  | zero => intro d _ _; simp
  | succ m ih =>
    rintro d hd ⟨t, ht⟩
    rw [show m + 1 + 2 = m + 3 from rfl] at ht
    have hweak : ∃ t', 5 ^ d = 1 + 2 ^ (m + 2) * t' := by
      refine ⟨2 * t, ?_⟩
      rw [ht, pow_succ]
      ring
    obtain ⟨e, he⟩ := ih d hd hweak
    have hepos : 0 < e := by
      rcases Nat.eq_zero_or_pos e with h0 | h
      · rw [h0, Nat.mul_zero] at he; omega
      · exact h
    obtain ⟨u, hu, hfe⟩ := five_pow_two_pow m
    obtain ⟨K, hK⟩ := one_add_pow_expand (2 ^ (m + 2) * u) e
    have h5 : 5 ^ d = 1 + e * (2 ^ (m + 2) * u) + (2 ^ (m + 2) * u) ^ 2 * K := by
      rw [he, pow_mul, hfe, hK]
    have hcancel : 2 * t = e * u + 2 ^ (m + 2) * u ^ 2 * K := by
      have heq : 2 ^ (m + 2) * (2 * t) = 2 ^ (m + 2) * (e * u + 2 ^ (m + 2) * u ^ 2 * K) := by
        have hl : 2 ^ (m + 3) * t = 2 ^ (m + 2) * (2 * t) := by
          rw [pow_succ]
          ring
        have hr : e * (2 ^ (m + 2) * u) + (2 ^ (m + 2) * u) ^ 2 * K =
            2 ^ (m + 2) * (e * u + 2 ^ (m + 2) * u ^ 2 * K) := by
          ring
        omega
      exact Nat.eq_of_mul_eq_mul_left (pow_pos (by norm_num : (0 : Nat) < 2) _) heq
    have hAeven : 2 ^ (m + 2) * u ^ 2 * K = 2 * (2 ^ (m + 1) * u ^ 2 * K) := by
      rw [pow_succ]
      ring
    have heu : (e * u) % 2 = 0 := by omega
    have he2 : e % 2 = 0 := by
      rw [Nat.mul_mod, hu] at heu
      omega
    obtain ⟨e', he'⟩ : ∃ e', e = 2 * e' := ⟨e / 2, by omega⟩
    refine ⟨e', ?_⟩
    rw [he, he', pow_succ]
    ring

theorem lcgIter_no_fixed (m : Nat) (d y : Nat) (hd : 0 < d) (hds : d < 2 ^ m)
    (hy : y < 2 ^ m) : lcgIter (2 ^ m) d y ≠ y := by
  intro hfix
  have hpos : 0 < 2 ^ m := pow_pos (by norm_num : (0 : Nat) < 2) _
  rw [lcgIter_formula (2 ^ m) hpos d y hy] at hfix
  have hid := sumPow5_identity d
  have hexp : 5 ^ d * y + sumPow5 d = 4 * sumPow5 d * y + sumPow5 d + y := by
    rw [← hid]
    ring
  rw [hexp] at hfix
  have hmodeq : 4 * sumPow5 d * y + sumPow5 d + y ≡ 0 + y [MOD 2 ^ m] := by
    have : (4 * sumPow5 d * y + sumPow5 d + y) % (2 ^ m) = y % (2 ^ m) := by
      rw [hfix, Nat.mod_eq_of_lt hy]
    simpa [Nat.ModEq] using this
  have hzero : 4 * sumPow5 d * y + sumPow5 d ≡ 0 [MOD 2 ^ m] :=
    Nat.ModEq.add_right_cancel' y hmodeq
  have hdvd : 2 ^ m ∣ 4 * sumPow5 d * y + sumPow5 d :=
    (Nat.modEq_zero_iff_dvd).mp hzero
  have hdvd2 : 2 ^ m ∣ sumPow5 d * (4 * y + 1) := by
    have : sumPow5 d * (4 * y + 1) = 4 * sumPow5 d * y + sumPow5 d := by ring
    rw [this]
    exact hdvd
  have hodd : Nat.Coprime 2 (4 * y + 1) := by
    rw [Nat.coprime_two_left, Nat.odd_iff]
    omega
  have hcop : Nat.Coprime (2 ^ m) (4 * y + 1) := Nat.Coprime.pow_left m hodd
  have hdvdc : 2 ^ m ∣ sumPow5 d := hcop.dvd_of_dvd_mul_right hdvd2
  obtain ⟨s, hs⟩ := hdvdc
  have hform : 5 ^ d = 1 + 2 ^ (m + 2) * s := by
    rw [← hid, hs]
    have : (2 : Nat) ^ (m + 2) = 4 * 2 ^ m := by
      rw [pow_succ, pow_succ]
      ring
    rw [this]
    ring
  have hdvdd := pow_two_dvd_of_five_pow m d hd ⟨s, hform⟩
  have := Nat.le_of_dvd hd hdvdd
  omega

theorem lcgIter_coverage (m : Nat) (i target : Nat) (hi : i < 2 ^ m)
    (ht : target < 2 ^ m) : ∃ n < 2 ^ m, lcgIter (2 ^ m) n i = target := by
  have hpos : 0 < 2 ^ m := pow_pos (by norm_num : (0 : Nat) < 2) _
  have hmem : ∀ n, lcgIter (2 ^ m) n i < 2 ^ m := fun n => lcgIter_lt _ hpos n i hi
  let g : Fin (2 ^ m) → Fin (2 ^ m) := fun n => ⟨lcgIter (2 ^ m) n.val i, hmem n.val⟩
  have haux : ∀ a b : Fin (2 ^ m), a.val < b.val → g a ≠ g b := by
    intro a b hab hgeq
    have hsplit : lcgIter (2 ^ m) ((b.val - a.val) + a.val) i =
        lcgIter (2 ^ m) (b.val - a.val) (lcgIter (2 ^ m) a.val i) :=
      lcgIter_add _ _ _ _
    have hba : (b.val - a.val) + a.val = b.val := by omega
    rw [hba] at hsplit
    have hv : lcgIter (2 ^ m) b.val i = lcgIter (2 ^ m) a.val i :=
      (congrArg Fin.val hgeq).symm
    have hfix : lcgIter (2 ^ m) (b.val - a.val) (lcgIter (2 ^ m) a.val i) =
        lcgIter (2 ^ m) a.val i := by
      rw [← hsplit, hv]
    exact lcgIter_no_fixed m (b.val - a.val) (lcgIter (2 ^ m) a.val i)
      (by omega) (by omega) (hmem a.val) hfix
  have hinj : Function.Injective g := by
    intro n₁ n₂ heq
    by_contra hne
    rcases Nat.lt_trichotomy n₁.val n₂.val with h | h | h
    · exact haux n₁ n₂ h heq
    · exact hne (Fin.ext h)
    · exact haux n₂ n₁ h heq.symm
  have hsurj : Function.Surjective g := Finite.injective_iff_surjective.mp hinj
  obtain ⟨n, hn⟩ := hsurj ⟨target, ht⟩
  exact ⟨n.val, n.isLt, congrArg Fin.val hn⟩

theorem findSlot_some_good (slots : List Slot) (size k : Nat) (hs : 0 < size) :
    ∀ (fuel i perturb r : Nat), i < size →
      findSlot slots size k fuel i perturb = some r →
      r < size ∧ goodSlot slots k r := by
  intro fuel
  induction fuel with
  | zero => intro i perturb r _ h; simp [findSlot] at h
  | succ fuel ih =>
    intro i perturb r hi h
    rw [findSlot] at h
    split at h
    · rename_i heq
      simp only [Option.some.injEq] at h
      subst h
      exact ⟨hi, Or.inl heq⟩
    · rename_i k' v heq
      split at h
      · rename_i hk
        simp only [Option.some.injEq] at h
        subst h
        subst hk
        exact ⟨hi, Or.inr ⟨v, heq⟩⟩
      · exact ih _ _ r (Nat.mod_lt _ hs) h

theorem findSlot_zero_perturb (slots : List Slot) (size k : Nat) (hs : 0 < size) :
    ∀ (n fuel i : Nat), i < size → n + 1 ≤ fuel →
      goodSlot slots k (lcgIter size n i) →
      (findSlot slots size k fuel i 0).isSome := by
  intro n
  induction n with
  | zero =>
    intro fuel i hi hfuel hgood
    obtain ⟨f, rfl⟩ : ∃ f, fuel = f + 1 := ⟨fuel - 1, by omega⟩
    rw [findSlot]
    split
    · simp
    · rename_i k' v heq
      split
      · simp
      · rename_i hk
        rw [show lcgIter size 0 i = i from rfl] at hgood
        rcases hgood with hfree | ⟨w, hw⟩
        · rw [heq] at hfree
          exact absurd hfree (by simp)
        · rw [heq] at hw
          simp only [Option.some.injEq, Prod.mk.injEq] at hw
          exact absurd hw.1 hk
  | succ n ih =>
    intro fuel i hi hfuel hgood
    obtain ⟨f, rfl⟩ : ∃ f, fuel = f + 1 := ⟨fuel - 1, by omega⟩
    rw [findSlot]
    split
    · simp
    · rename_i k' v heq
      split
      · simp
      · rename_i hk
        have hstep : lcgIter size (n + 1) i = lcgIter size n ((5 * i + 1) % size) := rfl
        rw [hstep] at hgood
        have hrw : (5 * i + 0 + 1) % size = (5 * i + 1) % size := by norm_num
        rw [hrw, Nat.zero_shiftRight]
        exact ih f _ (Nat.mod_lt _ hs) (by omega) hgood

theorem findSlot_isSome (slots : List Slot) (k m : Nat)
    (hfree : ∃ j, j < 2 ^ m ∧ slots.getD j none = none) :
    ∀ (perturb fuel i : Nat), i < 2 ^ m → perturb + 2 ^ m ≤ fuel →
      (findSlot slots (2 ^ m) k fuel i perturb).isSome := by
  intro perturb
  induction perturb using Nat.strong_induction_on with
  | _ perturb ihp =>
    intro fuel i hi hfuel
    have hpos : 0 < 2 ^ m := pow_pos (by norm_num : (0 : Nat) < 2) _
    rcases Nat.eq_zero_or_pos perturb with hp0 | hppos
    · subst hp0
      obtain ⟨j, hj, hjfree⟩ := hfree
      obtain ⟨n, hn, hlcg⟩ := lcgIter_coverage m i j hi hj
      refine findSlot_zero_perturb slots (2 ^ m) k hpos n fuel i hi (by omega) ?_
      rw [hlcg]
      exact Or.inl hjfree
    · obtain ⟨f, rfl⟩ : ∃ f, fuel = f + 1 := ⟨fuel - 1, by omega⟩
      rw [findSlot]
      split
      · simp
      · split
        · simp
        · have hlt : perturb >>> 5 < perturb := by
            rw [Nat.shiftRight_eq_div_pow]
            exact Nat.div_lt_self hppos (by norm_num)
          exact ihp (perturb >>> 5) hlt f _ (Nat.mod_lt _ hpos) (by omega)

theorem length_entriesOf_le (l : List Slot) : (entriesOf l).length ≤ l.length :=
  List.length_filterMap_le id l

theorem exists_free_of_lt (l : List Slot) :
    (entriesOf l).length < l.length → ∃ j, j < l.length ∧ l.getD j none = none := by
  induction l with
  | nil => intro h; simp at h
  | cons a t ih =>
    intro h
    cases a with
    | none => exact ⟨0, by simp, rfl⟩
    | some e =>
      have ht : (entriesOf t).length < t.length := by
        simpa [entriesOf] using h
      obtain ⟨j, hj, hfree⟩ := ih ht
      exact ⟨j + 1, by simpa using hj, hfree⟩

theorem mem_entriesOf (l : List Slot) (e : Nat × String) :
    e ∈ entriesOf l ↔ ∃ j, l.getD j none = some e := by
  induction l with
  | nil =>
    simp [entriesOf]
  | cons a t ih =>
    cases a with
    | none =>
      simp only [entriesOf, List.filterMap_cons, id] at *
      rw [ih]
      constructor
      · rintro ⟨j, hj⟩
        exact ⟨j + 1, hj⟩
      · rintro ⟨j, hj⟩
        cases j with
        | zero => simp at hj
        | succ j => exact ⟨j, hj⟩
    | some e' =>
      simp only [entriesOf, List.filterMap_cons, id] at *
      simp only [List.mem_cons]
      rw [ih]
      constructor
      · rintro (rfl | ⟨j, hj⟩)
        · exact ⟨0, rfl⟩
        · exact ⟨j + 1, hj⟩
      · rintro ⟨j, hj⟩
        cases j with
        | zero =>
          simp only [List.getD_cons_zero, Option.some.injEq] at hj
          exact Or.inl hj.symm
        | succ j => exact Or.inr ⟨j, hj⟩

theorem getD_set_self (l : List Slot) (r : Nat) (x : Slot) (h : r < l.length) :
    (l.set r x).getD r none = x := by
  induction l generalizing r with
  | nil => simp at h
  | cons a t ih =>
    cases r with
    | zero => rfl
    | succ r => exact ih r (by simpa using h)

theorem getD_set_other (l : List Slot) (r j : Nat) (x : Slot) (h : j ≠ r) :
    (l.set r x).getD j none = l.getD j none := by
  induction l generalizing r j with
  | nil => simp
  | cons a t ih =>
    cases r with
    | zero =>
      cases j with
      | zero => exact absurd rfl h
      | succ j => rfl
    | succ r =>
      cases j with
      | zero => rfl
      | succ j => exact ih r j (by omega)

theorem entriesOf_set_free (l : List Slot) (e : Nat × String) :
    ∀ (r : Nat), r < l.length → l.getD r none = none →
      (entriesOf (l.set r (some e))).Perm (e :: entriesOf l) := by
  induction l with
  | nil => intro r h; simp at h
  | cons a t ih =>
    intro r hr hfree
    cases r with
    | zero =>
      have : a = none := hfree
      subst this
      simp [entriesOf, List.filterMap_cons]
    | succ r =>
      cases a with
      | none =>
        simp only [List.set_cons_succ, entriesOf, List.filterMap_cons, id]
        exact ih r (by simpa using hr) hfree
      | some e' =>
        have hperm := ih r (by simpa using hr) hfree
        show (e' :: entriesOf (t.set r (some e))).Perm (e :: e' :: entriesOf t)
        exact List.Perm.trans (hperm.cons e') (List.Perm.swap e e' _)

theorem insertRaw_spec (m : Nat) (slots : List Slot) (k : Nat) (v : String)
    (hlen : slots.length = 2 ^ m)
    (hcnt : (entriesOf slots).length < 2 ^ m)
    (hnotmem : k ∉ (entriesOf slots).map Prod.fst) :
    ∃ slots' r, insertRaw slots (2 ^ m) k v = some slots' ∧
      slots' = slots.set r (some (k, v)) ∧ r < 2 ^ m ∧
      slots.getD r none = none ∧
      slots'.length = 2 ^ m ∧
      (entriesOf slots').Perm ((k, v) :: entriesOf slots) := by
  have hpos : 0 < 2 ^ m := pow_pos (by norm_num : (0 : Nat) < 2) _
  have hfree : ∃ j, j < 2 ^ m ∧ slots.getD j none = none := by
    obtain ⟨j, hj, h⟩ := exists_free_of_lt slots (by omega)
    exact ⟨j, by omega, h⟩
  have hsome := findSlot_isSome slots k m hfree k (k + 1 + 2 ^ m) (k % 2 ^ m)
    (Nat.mod_lt _ hpos) (by omega)
  obtain ⟨r, hr⟩ := Option.isSome_iff_exists.mp hsome
  obtain ⟨hrlt, hgood⟩ := findSlot_some_good slots (2 ^ m) k hpos _ _ _ r
    (Nat.mod_lt _ hpos) hr
  have hrfree : slots.getD r none = none := by
    rcases hgood with h | ⟨w, hw⟩
    · exact h
    · exfalso
      apply hnotmem
      have : (k, w) ∈ entriesOf slots := (mem_entriesOf slots (k, w)).mpr ⟨r, hw⟩
      exact List.mem_map.mpr ⟨(k, w), this, rfl⟩
  refine ⟨slots.set r (some (k, v)), r, ?_, rfl, by omega, hrfree, ?_, ?_⟩
  · rw [insertRaw, hr]
  · rw [List.length_set, hlen]
  · exact entriesOf_set_free slots (k, v) r (by omega) hrfree

theorem insertRaw_canonical (slots : List Slot) (size k : Nat) (v : String)
    (_hlen : slots.length = size) (hcan : CanonicalSlots slots) (hk : k < size)
    (hnotmem : k ∉ (entriesOf slots).map Prod.fst) :
    insertRaw slots size k v = some (slots.set k (some (k, v))) := by
  have hfree : slots.getD k none = none := by
    cases hslot : slots.getD k none with
    | none => rfl
    | some e =>
      exfalso
      apply hnotmem
      have he1 : e.1 = k := hcan k e hslot
      have : e ∈ entriesOf slots := (mem_entriesOf slots e).mpr ⟨k, hslot⟩
      exact List.mem_map.mpr ⟨e, this, he1⟩
  rw [insertRaw]
  obtain ⟨f, hf⟩ : ∃ f, k + 1 + size = f + 1 := ⟨k + size, by omega⟩
  rw [hf, findSlot, Nat.mod_eq_of_lt hk, hfree]

theorem canonical_set (slots : List Slot) (k : Nat) (v : String)
    (hcan : CanonicalSlots slots) (hk : k < slots.length) :
    CanonicalSlots (slots.set k (some (k, v))) := by
  intro j e hj
  by_cases hjk : j = k
  · subst hjk
    rw [getD_set_self slots j (some (j, v)) hk] at hj
    simp only [Option.some.injEq] at hj
    rw [← hj]
  · rw [getD_set_other slots k j _ hjk] at hj
    exact hcan j e hj

theorem growSize_spec :
    ∀ (gas cur minused j : Nat), minused + 1 - cur ≤ gas → cur = 2 ^ j →
      ∃ j', growSize cur minused = 2 ^ j' ∧ minused < growSize cur minused ∧
        cur ≤ growSize cur minused := by
  intro gas
  induction gas with
  | zero =>
    intro cur minused j hgas hj
    have hpos : 0 < cur := by rw [hj]; exact pow_pos (by norm_num : (0 : Nat) < 2) _
    rw [growSize, dif_neg (by omega)]
    exact ⟨j, hj, by omega, le_refl _⟩
  | succ gas ih =>
    intro cur minused j hgas hj
    have hpos : 0 < cur := by rw [hj]; exact pow_pos (by norm_num : (0 : Nat) < 2) _
    by_cases hguard : 0 < cur ∧ cur ≤ minused
    · rw [growSize, dif_pos hguard]
      obtain ⟨j', h1, h2, h3⟩ := ih (2 * cur) minused (j + 1) (by omega)
        (by rw [hj, pow_succ]; ring)
      exact ⟨j', h1, h2, by omega⟩
    · rw [growSize, dif_neg hguard]
      exact ⟨j, hj, by omega, le_refl _⟩

theorem reinsertAll_spec (m : Nat) :
    ∀ (src acc : List Slot),
      acc.length = 2 ^ m →
      (entriesOf src).length + (entriesOf acc).length < 2 ^ m →
      ((entriesOf src).map Prod.fst ++ (entriesOf acc).map Prod.fst).Nodup →
      ∃ res, reinsertAll (2 ^ m) src acc = some res ∧
        res.length = 2 ^ m ∧
        (entriesOf res).Perm (entriesOf src ++ entriesOf acc) ∧
        (CanonicalSlots acc → (∀ x ∈ (entriesOf src).map Prod.fst, x < 2 ^ m) →
          CanonicalSlots res) := by
  intro src
  induction src with
  | nil =>
    intro acc h1 h2 h3
    exact ⟨acc, rfl, h1, by simp [entriesOf], fun hc _ => hc⟩
  | cons a rest ih =>
    intro acc h1 h2 h3
    cases a with
    | none =>
      have hsrc : entriesOf (none :: rest) = entriesOf rest := rfl
      rw [hsrc] at h2 h3
      obtain ⟨res, hres, hl, hp, hc⟩ := ih acc h1 h2 h3
      rw [reinsertAll]
      exact ⟨res, hres, hl, by rw [hsrc]; exact hp, by rw [hsrc]; exact hc⟩
    | some e =>
      obtain ⟨k, v⟩ := e
      have hsrc : entriesOf (some (k, v) :: rest) = (k, v) :: entriesOf rest := rfl
      rw [hsrc, List.length_cons] at h2
      rw [hsrc, List.map_cons, List.cons_append, List.nodup_cons] at h3
      obtain ⟨hknot, hndrest⟩ := h3
      have hknotacc : k ∉ (entriesOf acc).map Prod.fst := fun hmem =>
        hknot (List.mem_append.mpr (Or.inr hmem))
      obtain ⟨acc', r, hinsert, hset, hrlt, hrfree, hlen', hperm'⟩ :=
        insertRaw_spec m acc k v h1 (by omega) hknotacc
      have hlenperm : (entriesOf acc').length = (entriesOf acc).length + 1 := by
        have := hperm'.length_eq
        simpa using this
      have hcnt' : (entriesOf rest).length + (entriesOf acc').length < 2 ^ m := by
        omega
      have hnd' : ((entriesOf rest).map Prod.fst ++ (entriesOf acc').map Prod.fst).Nodup := by
        have hp1 : ((entriesOf acc').map Prod.fst).Perm (k :: (entriesOf acc).map Prod.fst) := by
          simpa using hperm'.map Prod.fst
        have hpermkeys : ((entriesOf rest).map Prod.fst ++
            (entriesOf acc').map Prod.fst).Perm
            (k :: ((entriesOf rest).map Prod.fst ++ (entriesOf acc).map Prod.fst)) :=
          List.Perm.trans (List.Perm.append_left _ hp1) List.perm_middle
        refine hpermkeys.symm.nodup ?_
        rw [List.nodup_cons]
        exact ⟨hknot, hndrest⟩
      obtain ⟨res, hres, hlenres, hpermres, hcanres⟩ := ih acc' hlen' hcnt' hnd'
      refine ⟨res, ?_, hlenres, ?_, ?_⟩
      · rw [reinsertAll, hinsert]
        exact hres
      · rw [hsrc, List.cons_append]
        have hstep1 : (entriesOf res).Perm (entriesOf rest ++ ((k, v) :: entriesOf acc)) :=
          List.Perm.trans hpermres (List.Perm.append_left _ hperm')
        exact List.Perm.trans hstep1 List.perm_middle
      · intro hcan hksmall
        rw [hsrc, List.map_cons] at hksmall
        have hklt : k < 2 ^ m := hksmall k (by simp)
        have hinsert2 := insertRaw_canonical acc (2 ^ m) k v h1 hcan hklt hknotacc
        rw [hinsert] at hinsert2
        have hacc' : acc' = acc.set k (some (k, v)) := Option.some.inj hinsert2
        have hcan' : CanonicalSlots acc' := by
          rw [hacc']
          exact canonical_set acc k v hcan (by omega)
        refine hcanres hcan' ?_
        intro x hx
        exact hksmall x (by simp [hx])

theorem entriesOf_replicate (n : Nat) : entriesOf (List.replicate n none) = [] := by
  induction n with
  | zero => rfl
  | succ n ih =>
    rw [List.replicate_succ]
    exact ih

theorem getD_replicate_none (n j : Nat) :
    (List.replicate n (none : Slot)).getD j none = none := by
  induction n generalizing j with
  | zero => simp
  | succ n ih =>
    rw [List.replicate_succ]
    cases j with
    | zero => rfl
    | succ j => exact ih j

theorem canonical_replicate (n : Nat) : CanonicalSlots (List.replicate n none) := by
  intro j e h
  rw [getD_replicate_none] at h
  simp at h

theorem dictInv_empty : DictInv [] emptyDict := by
  refine ⟨⟨3, rfl⟩, Nat.le.refl, by simp [emptyDict], ?_, ?_, fun _ => canonical_replicate 8⟩
  · show 3 * (entriesOf (List.replicate 8 none)).length ≤ 2 * 8
    rw [entriesOf_replicate]
    simp
  · show (entriesOf (List.replicate 8 none)).Perm []
    rw [entriesOf_replicate]

theorem dictInsert_step (E : List (Nat × String)) (d : PyDict) (k : Nat) (v : String)
    (hinv : DictInv E d) (hk : k ∉ E.map Prod.fst) (hnd : (E.map Prod.fst).Nodup) :
    ∃ d', dictInsert d k v = some d' ∧ DictInv ((k, v) :: E) d' := by
  obtain ⟨⟨m, hm⟩, h8, hlen, hfillB, hperm, hcanon⟩ := hinv
  have hlenE : (entriesOf d.slots).length = E.length := hperm.length_eq
  have hkent : k ∉ (entriesOf d.slots).map Prod.fst := by
    intro hmem
    exact hk ((hperm.map Prod.fst).mem_iff.mp hmem)
  have hcnt : (entriesOf d.slots).length < 2 ^ m := by
    rw [hm] at hfillB h8
    omega
  obtain ⟨slots', r, hinsert, hset, hrlt, hrfree, hlen', hperm'⟩ :=
    insertRaw_spec m d.slots k v (by rw [hlen, hm]) hcnt hkent
  have hinsertS : insertRaw d.slots d.size k v = some slots' := by
    rw [hm]
    exact hinsert
  have hfill' : (entriesOf slots').length = E.length + 1 := by
    have := hperm'.length_eq
    simp at this
    omega
  have hpermE' : (entriesOf slots').Perm ((k, v) :: E) :=
    hperm'.trans (hperm.cons (k, v))
  by_cases hresize : (entriesOf slots').length * 3 ≥ d.size * 2
  · obtain ⟨j', hpow', hgt', hge'⟩ := growSize_spec
      (4 * (entriesOf slots').length + 1) 8 (4 * (entriesOf slots').length) 3
      (by omega) rfl
    have hrepl : (List.replicate (growSize 8 (4 * (entriesOf slots').length))
        (none : Slot)).length = 2 ^ j' := by
      rw [List.length_replicate, hpow']
    have hcnt2 : (entriesOf slots').length +
        (entriesOf (List.replicate (growSize 8 (4 * (entriesOf slots').length))
          (none : Slot))).length < 2 ^ j' := by
      rw [entriesOf_replicate]
      simp only [List.length_nil]
      rw [← hpow']
      omega
    have hnd2 : ((entriesOf slots').map Prod.fst ++
        (entriesOf (List.replicate (growSize 8 (4 * (entriesOf slots').length))
          (none : Slot))).map Prod.fst).Nodup := by
      rw [entriesOf_replicate]
      simp only [List.map_nil, List.append_nil]
      refine (hpermE'.map Prod.fst).nodup_iff.mpr ?_
      rw [List.map_cons, List.nodup_cons]
      exact ⟨hk, hnd⟩
    obtain ⟨res, hres, hlenres, hpermres, hcanres⟩ := by
      have := reinsertAll_spec j' slots'
        (List.replicate (growSize 8 (4 * (entriesOf slots').length)) none)
        hrepl hcnt2 hnd2
      rw [← hpow'] at this
      exact this
    refine ⟨⟨growSize 8 (4 * (entriesOf slots').length), res⟩, ?_, ?_⟩
    · rw [dictInsert, hinsertS]
      simp only [ge_iff_le]
      rw [if_pos hresize, hres]
    · refine ⟨⟨j', hpow'⟩, hge', ?_, ?_, ?_, ?_⟩
      · show res.length = growSize 8 (4 * (entriesOf slots').length)
        rw [hlenres, hpow']
      · show 3 * (entriesOf res).length ≤ 2 * growSize 8 (4 * (entriesOf slots').length)
        have hl : (entriesOf res).length = (entriesOf slots').length := by
          have := hpermres.length_eq
          rw [entriesOf_replicate] at this
          simpa using this
        omega
      · show (entriesOf res).Perm ((k, v) :: E)
        refine List.Perm.trans hpermres ?_
        rw [entriesOf_replicate, List.append_nil]
        exact hpermE'
      · intro hall
        refine hcanres (canonical_replicate _) ?_
        intro x hx
        have : x ∈ ((k, v) :: E).map Prod.fst :=
          ((hpermE'.map Prod.fst).mem_iff).mp hx
        have hlt : x < growSize 8 (4 * (entriesOf slots').length) := hall x this
        exact hlt
  · refine ⟨⟨d.size, slots'⟩, ?_, ?_⟩
    · rw [dictInsert, hinsertS]
      simp only [ge_iff_le]
      rw [if_neg hresize]
    · refine ⟨⟨m, hm⟩, h8, (show slots'.length = d.size by rw [hlen', hm]),
        ?_, hpermE', ?_⟩
      · show 3 * (entriesOf slots').length ≤ 2 * d.size
        omega
      · intro hall
        have hksm : k < d.size := hall k (by simp)
        have hEsm : ∀ x ∈ E.map Prod.fst, x < d.size := by
          intro x hx
          exact hall x (by simp [hx])
        have hcanD := hcanon hEsm
        have heq := insertRaw_canonical d.slots d.size k v hlen hcanD hksm hkent
        rw [hinsertS] at heq
        have hslots' : slots' = d.slots.set k (some (k, v)) := Option.some.inj heq
        show CanonicalSlots slots'
        rw [hslots']
        exact canonical_set d.slots k v hcanD (by omega)

theorem dictOfList_go :
    ∀ (l E : List (Nat × String)) (d : PyDict),
      DictInv E d → (E.map Prod.fst).Nodup →
      (∀ x ∈ l.map Prod.fst, x ∉ E.map Prod.fst) → (l.map Prod.fst).Nodup →
      ∃ d' E', l.foldlM (fun d kv => dictInsert d kv.1 kv.2) d = some d' ∧
        E'.Perm (E ++ l) ∧ DictInv E' d' := by
  intro l
  induction l with
  | nil =>
    intro E d hinv hnd _ _
    exact ⟨d, E, rfl, by simp, hinv⟩
  | cons kv rest ih =>
    intro E d hinv hnd hdisj hndl
    obtain ⟨k, v⟩ := kv
    have hk : k ∉ E.map Prod.fst := hdisj k (by simp)
    obtain ⟨d₁, hd₁, hinv₁⟩ := dictInsert_step E d k v hinv hk hnd
    have hnd₁ : (((k, v) :: E).map Prod.fst).Nodup := by
      rw [List.map_cons, List.nodup_cons]
      exact ⟨hk, hnd⟩
    rw [List.map_cons, List.nodup_cons] at hndl
    have hdisj₁ : ∀ x ∈ rest.map Prod.fst, x ∉ ((k, v) :: E).map Prod.fst := by
      intro x hx
      rw [List.map_cons, List.mem_cons]
      rintro (rfl | hmem)
      · exact hndl.1 hx
      · exact hdisj x (by simp [hx]) hmem
    obtain ⟨d', E', hfold, hperm', hinv'⟩ := ih ((k, v) :: E) d₁ hinv₁ hnd₁ hdisj₁ hndl.2
    refine ⟨d', E', ?_, ?_, hinv'⟩
    · rw [List.foldlM_cons, hd₁]
      exact hfold
    · exact hperm'.trans List.perm_middle.symm

theorem keys_sorted_aux :
    ∀ (l : List Slot) (ofs : Nat),
      (∀ j e, l.getD j none = some e → e.1 = ofs + j) →
      ((entriesOf l).map Prod.fst).Sorted (· < ·) ∧
        (∀ x ∈ (entriesOf l).map Prod.fst, ofs ≤ x) := by
  intro l
  induction l with
  | nil =>
    intro ofs _
    constructor
    · show List.Sorted (· < ·) []
      simp
    · intro x hx
      simp [entriesOf] at hx
  | cons a t ih =>
    intro ofs h
    have ht := ih (ofs + 1) (fun j e hj => by
      have := h (j + 1) e hj
      omega)
    cases a with
    | none =>
      refine ⟨ht.1, ?_⟩
      intro x hx
      have := ht.2 x hx
      omega
    | some e =>
      have he : e.1 = ofs := by
        have := h 0 e rfl
        omega
      constructor
      · show List.Sorted (· < ·) (e.1 :: (entriesOf t).map Prod.fst)
        rw [List.sorted_cons]
        refine ⟨fun b hb => ?_, ht.1⟩
        have := ht.2 b hb
        omega
      · intro x hx
        rcases List.mem_cons.mp hx with rfl | hmem
        · omega
        · have := ht.2 x hmem
          omega

theorem sorted_lt_range' : ∀ (n s : Nat), (List.range' s n).Sorted (· < ·) := by
  intro n
  induction n with
  | zero => intro s; simp
  | succ n ih =>
    intro s
    rw [List.range'_succ, List.sorted_cons]
    refine ⟨fun b hb => ?_, ih (s + 1)⟩
    have := List.mem_range'_1.mp hb
    omega

theorem dictGet_canonical (d : PyDict) (k : Nat) (v : String)
    (hcan : CanonicalSlots d.slots) (hmem : (k, v) ∈ entriesOf d.slots)
    (hk : k < d.size) :
    dictGet d k = some v := by
  obtain ⟨j, hj⟩ := (mem_entriesOf _ _).mp hmem
  have hjk : k = j := hcan j (k, v) hj
  subst hjk
  rw [dictGet]
  obtain ⟨f, hf⟩ : ∃ f, k + 1 + d.size = f + 1 := ⟨k + d.size, by omega⟩
  have hfind : findSlot d.slots d.size k (f + 1) k k = some k := by
    rw [findSlot, hj]
    simp
  rw [hf, Nat.mod_eq_of_lt hk, hfind]
  simp only [List.getD_eq_getElem?_getD] at hj
  simp [hj]

theorem dict_keys_eq_range (N : Nat) (etag : Nat → String) (order : List Nat)
    (hperm : order.Perm (List.range' 1 N)) :
    ∃ d, dictOfList (order.map (fun k => (k, etag k))) = some d ∧
      dictKeys d = List.range' 1 N ∧
      ∀ k ∈ List.range' 1 N, dictGet d k = some (etag k) := by
  have hkeysl : (order.map (fun k => (k, etag k))).map Prod.fst = order := by
    rw [List.map_map]
    exact List.map_id order
  have hndorder : order.Nodup := hperm.symm.nodup (List.nodup_range' 1 N 1 (by omega))
  obtain ⟨d, E, hfold, hpermE, hinv⟩ := dictOfList_go
    (order.map (fun k => (k, etag k))) [] emptyDict dictInv_empty (by simp)
    (by simp) (by rw [hkeysl]; exact hndorder)
  rw [List.nil_append] at hpermE
  obtain ⟨⟨m, hm⟩, h8, hlen, hfillB, hpermD, hcanon⟩ := hinv
  have hkeysE : (E.map Prod.fst).Perm (List.range' 1 N) := by
    refine List.Perm.trans (hpermE.map Prod.fst) ?_
    rw [hkeysl]
    exact hperm
  have hlenE : E.length = N := by
    have h1 := hpermE.length_eq
    have h2 := hperm.length_eq
    rw [List.length_map, List.length_range'] at *
    omega
  have hlenD : (entriesOf d.slots).length = N := by
    have := hpermD.length_eq
    omega
  have hNsize : N < d.size := by omega
  have hallsmall : ∀ x ∈ E.map Prod.fst, x < d.size := by
    intro x hx
    have hxr : x ∈ List.range' 1 N := hkeysE.mem_iff.mp hx
    have := List.mem_range'_1.mp hxr
    omega
  have hcan := hcanon hallsmall
  have hsorted := (keys_sorted_aux d.slots 0 (fun j e hj => by
    have := hcan j e hj
    omega)).1
  have hpermKeys : (dictKeys d).Perm (List.range' 1 N) :=
    (hpermD.map Prod.fst).trans hkeysE
  have hs1 : (dictKeys d).Sorted (· ≤ ·) := List.Sorted.le_of_lt hsorted
  have hs2 : (List.range' 1 N).Sorted (· ≤ ·) :=
    List.Sorted.le_of_lt (sorted_lt_range' N 1)
  have heq : dictKeys d = List.range' 1 N :=
    List.eq_of_perm_of_sorted hpermKeys hs1 hs2
  refine ⟨d, hfold, heq, ?_⟩
  intro k hk
  have hkmem : (k, etag k) ∈ entriesOf d.slots := by
    have h1 : k ∈ order := hperm.mem_iff.mpr hk
    have h2 : (k, etag k) ∈ order.map (fun k => (k, etag k)) :=
      List.mem_map.mpr ⟨k, h1, rfl⟩
    have h3 : (k, etag k) ∈ E := hpermE.mem_iff.mpr h2
    exact hpermD.mem_iff.mpr h3
  have hksm : k < d.size := by
    have := List.mem_range'_1.mp hk
    omega
  exact dictGet_canonical d k (etag k) hcan hkmem hksm

theorem foldl_append_concat (g : Nat → String) :
    ∀ (l : List Nat) (init : String),
      l.foldl (fun b k => b ++ g k) init = init ++ concatStrings (l.map g) := by
  intro l
  induction l with
  | nil =>
    intro init
    simp [concatStrings]
  | cons a t ih =>
    intro init
    rw [List.foldl_cons, ih, List.map_cons]
    simp [concatStrings, String.append_assoc]

/-- C5: whatever order `order` the worker threads finish in (any
permutation of the part numbers `1..N`), the recorded dict
`part_upload_list` iterates its keys as exactly `1, 2, ..., N`, and the
CompleteMultipartUpload body built at lines 454-460 lists the `<Part>`
elements in ascending part-number order, each carrying the ETag stored
for that part. -/
theorem C5_complete_body_ascending (N : Nat) (etag : Nat → String) (order : List Nat)
    (hperm : order.Perm (List.range' 1 N)) :
    ∃ d, dictOfList (order.map fun k => (k, etag k)) = some d ∧
      dictKeys d = List.range' 1 N ∧
      completeMultipartBody d =
        "<CompleteMultipartUpload>\n" ++
          concatStrings ((List.range' 1 N).map fun k => claimPartXml k (etag k)) ++
          "</CompleteMultipartUpload>" := by
  obtain ⟨d, hfold, hkeys, hget⟩ := dict_keys_eq_range N etag order hperm
  refine ⟨d, hfold, hkeys, ?_⟩
  unfold completeMultipartBody
  rw [hkeys, foldl_append_concat (partXmlFragment d)]
  have hmap : (List.range' 1 N).map (partXmlFragment d) =
      (List.range' 1 N).map (fun k => claimPartXml k (etag k)) := by
    refine List.map_congr_left ?_
    intro k hk
    unfold partXmlFragment
    rw [hget k hk]
    rfl
  rw [hmap]

/-- Witness for C5: three parts finishing in the order 2, 3, 1 still
produce an ascending completion body. -/
theorem C5_witness :
    ([2, 3, 1] : List Nat).Perm (List.range' 1 3) ∧
    ∃ d, dictOfList ([2, 3, 1].map fun k => (k, "e" ++ toString k)) = some d ∧
      dictKeys d = List.range' 1 3 ∧
      completeMultipartBody d =
        "<CompleteMultipartUpload>\n" ++
          concatStrings ((List.range' 1 3).map fun k =>
            claimPartXml k ("e" ++ toString k)) ++
          "</CompleteMultipartUpload>" :=
  ⟨by decide, C5_complete_body_ascending 3 (fun k => "e" ++ toString k) [2, 3, 1]
    (by decide)⟩

end S3Spec
